import Mathlib

/-!
Verification of the L* learner (`src/Lstar.py`, `src/DFA.py`, `src/utils.py`).

The Python code is shallowly embedded as executable Lean functions:

* Python strings over the alphabet become `List σ` for a symbol type `σ`
  with decidable equality (the repository uses one-character strings as
  symbols; `DFA.to_dfa` takes `s[-1]`, a single character, as the
  transition label, so symbols are single characters).
* Python dicts and sets become insertion-ordered association lists and
  insertion-ordered duplicate-free lists.  Python set/dict iteration
  order is determinized as insertion order; where a claim depends on the
  iteration order being something more specific the theorems below make
  that explicit.
* Extracted state names are plain strings (`List σ`), exactly as in the
  source: `_make_row_to_state_map` names the empty prefix's class with
  the literal one-character string `u"λ"`, which lives in the same
  namespace as the representative prefixes.  The λ character is supplied
  by the `LamChar` class (`'λ'` for `Char`), so the label can alias the
  prefix `"λ"` whenever `'λ'` is an alphabet symbol — a genuine source
  behaviour that the extraction theorems below must (and do) account
  for.
* `sorted(..., key=len)` is a stable insertion sort on the length of the
  key, matching CPython's stable `sorted`.
* Failures (`NameError` for the undefined `max_ce_iters`, `KeyError`,
  `IndexError`, the `assert` statements in `DFA.next_state` and
  `ObservationTable.to_dfa`) are modelled with `Except Err`.
* The membership oracle `self.T` is passed explicitly as a function
  `T : List σ → Bool`.  Every call of `self.T(...)` in the source
  appends its argument to the instrumentation field `oracleCalls`;
  the memo cache `self.queried` is a separate field, exactly as in the
  source.  (`_query` consults the cache first; `find_counterexample`
  calls `self.T` directly, and the embedding mirrors that.)
* The unbounded `while` loops of `lstar` are given explicit fuel; a run
  that terminates in Python is reproduced by any sufficiently large
  fuel, and all theorems about completed runs are stated on the
  `.ok (some table)` results, which are fuel-independent.
* `__get_max_ce_len` computes `log(a, A_size) - 1` with IEEE floats and
  compares its fractional part with `0.8`.  The embedding evaluates the
  same real-number computation exactly: with `k = ⌊log_A a⌋` (that is,
  `Nat.log`), the fractional part of `log_A a - 1` is at least `0.8`
  iff `A ^ (5*k + 4) ≤ a ^ 5`.  This is exact real arithmetic; it can
  differ from the float computation only within float rounding error of
  the `0.8` threshold.
-/

namespace LStar

/-- The λ character of the source: `_make_row_to_state_map` names the
empty prefix's class with the literal one-character string `u"λ"`.
This class supplies that character for an arbitrary symbol type; for
`Char` it is `'λ'`, the source's constant. -/
class LamChar (σ : Type) where
  lam : σ

instance : LamChar Char := ⟨'λ'⟩

/-! ## Association lists and small list utilities -/

variable {σ : Type} [DecidableEq σ] [LamChar σ] {κ : Type} [DecidableEq κ] {ν : Type}

/-- Lookup in an insertion-ordered association list (Python dict read). -/
def alookup [DecidableEq κ] : List (κ × ν) → κ → Option ν
  | [], _ => none
  | (k, v) :: rest, key => if key = k then some v else alookup rest key

/-- Update-or-append in an association list (Python dict write). -/
def aupdate [DecidableEq κ] : List (κ × ν) → κ → ν → List (κ × ν)
  | [], key, val => [(key, val)]
  | (k, v) :: rest, key, val =>
      if k = key then (key, val) :: rest else (k, v) :: aupdate rest key val

/-- Remove the entry of a key (Python `dict.pop`; dict keys are unique). -/
def aerase [DecidableEq κ] (al : List (κ × ν)) (key : κ) : List (κ × ν) :=
  al.filter (fun p => p.1 ≠ key)

/-- Append-if-absent (Python `set.add`, determinized to insertion order). -/
def addElem [DecidableEq κ] (l : List κ) (x : κ) : List κ :=
  if x ∈ l then l else l ++ [x]

/-- Stable insertion of `x` after every element whose key length is `≤` its
own, mirroring the stability of CPython's `sorted`. -/
def insertByLen (keyLen : α → Nat) (x : α) : List α → List α
  | [] => [x]
  | y :: ys => if keyLen y ≤ keyLen x then y :: insertByLen keyLen x ys else x :: y :: ys

/-- Stable sort by key length (`sorted(..., key=len)`). -/
def stableSortLen (keyLen : α → Nat) (l : List α) : List α :=
  l.foldl (fun acc x => insertByLen keyLen x acc) []

/-- All strings of a given length, in the order of
`itertools.product(alphabet, repeat=length)` (first symbol varies slowest),
from `utils.all_words_of_length`. -/
def allWordsOfLength (A : List σ) : Nat → List (List σ)
  | 0 => [[]]
  | n + 1 => A.flatMap fun a => (allWordsOfLength A n).map fun w => a :: w

/-- Fuelled floor-logarithm search: the largest `j ≥ k` with `b ^ j ≤ a`,
reached by at most `fuel` increments. -/
def natLogGo (b a : Nat) : Nat → Nat → Nat
  | 0, k => k
  | fuel + 1, k => if b ^ (k + 1) ≤ a then natLogGo b a fuel (k + 1) else k

/-- `⌊log_b a⌋` as a structurally recursive function (so that concrete
instances evaluate inside the kernel). -/
def natLog (b a : Nat) : Nat := natLogGo b a a 0

instance {ε α : Type} [DecidableEq ε] [DecidableEq α] : DecidableEq (Except ε α) :=
  fun x y =>
    match x, y with
    | .ok a, .ok b =>
        if h : a = b then .isTrue (by rw [h])
        else .isFalse (by intro hc; cases hc; exact h rfl)
    | .error a, .error b =>
        if h : a = b then .isTrue (by rw [h])
        else .isFalse (by intro hc; cases hc; exact h rfl)
    | .ok _, .error _ => .isFalse (by intro hc; cases hc)
    | .error _, .ok _ => .isFalse (by intro hc; cases hc)

/-! ## Errors

Python exceptions raised by the embedded code paths. -/

/-- Failure modes of the embedded code: `nameError` is the `NameError` for
the undefined `max_ce_iters` in `__get_max_ce_len`; `mathDomain` is the
`ValueError` of `log` on a nonpositive argument (empty alphabet);
`keyError` / `indexError` are dict/index failures; `unknownState`,
`unknownSymbol` are the two `assert`s of `DFA.next_state`;
`inconsistentTable` is the `assert` in `ObservationTable.to_dfa`. -/
inductive Err where
  | nameError
  | mathDomain
  | keyError
  | indexError
  | unknownState
  | unknownSymbol
  | inconsistentTable
  deriving DecidableEq

/-! ## The DFA class (`src/DFA.py`)

States produced by `to_dfa` are plain strings: either the label `"λ"`
(for the class of the empty prefix) or a representative prefix.  Both
live in the same `List σ` namespace, as in the source. -/

/-- A state name: a plain string (the label `"λ"` or a representative
prefix). -/
abbrev DState (σ : Type) := List σ

/-- The label `u"λ"` as a state name: the one-character string of
the λ character.  It lives in the same namespace as representative
prefixes, so it aliases the prefix `"λ"` whenever `'λ'` is an alphabet
symbol. -/
def lamLabel (σ : Type) [LamChar σ] : DState σ := [LamChar.lam]

/-- The `DFA` class: alphabet, initial state, final states, states, and the
nested transition dictionary `{q: {a: next_q}}`. -/
structure DFA (σ : Type) where
  A : List σ
  q0 : DState σ
  F : List (DState σ)
  Q : List (DState σ)
  d : List (DState σ × List (σ × DState σ))
  deriving DecidableEq

/-- The membership test `a in self.A` of `next_state`: the argument is a
string, the alphabet a collection of single-symbol strings. -/
def symOf (A : List σ) (a : List σ) : Option σ :=
  match a with
  | [c] => if c ∈ A then some c else none
  | _ => none

/-- `DFA.next_state(q, a)`: an empty-string symbol returns `q` unchecked;
otherwise the state and the symbol are asserted to be known and the nested
dictionary is consulted. -/
def nextState (M : DFA σ) (q : DState σ) (a : List σ) : Except Err (DState σ) :=
  if a = [] then .ok q
  else if q ∉ M.Q then .error .unknownState
  else
    match symOf M.A a with
    | none => .error .unknownSymbol
    | some c =>
        match alookup M.d q with
        | none => .error .keyError
        | some inner =>
            match alookup inner c with
            | none => .error .keyError
            | some q2 => .ok q2

/-- The symbol-by-symbol loop of `DFA.recognize`. -/
def recognizeFrom (M : DFA σ) : DState σ → List σ → Except Err (DState σ)
  | q, [] => .ok q
  | q, c :: rest =>
      match nextState M q [c] with
      | .error e => .error e
      | .ok q2 => recognizeFrom M q2 rest

/-- `DFA.recognize(string)`. -/
def recognize (M : DFA σ) (s : List σ) : Except Err Bool :=
  if s = [] then .ok (M.q0 ∈ M.F)
  else
    match recognizeFrom M M.q0 s with
    | .error e => .error e
    | .ok q => .ok (q ∈ M.F)

/-! ## The observation table (`src/Lstar.py`) -/

/-- The `ObservationTable` state.  `oracleCalls` is instrumentation only: it
records, in order, every argument on which the teacher `self.T` is invoked
(both through `_query` and directly in `find_counterexample`); no embedded
operation reads it. -/
structure ObservationTable (σ : Type) where
  A : List σ
  queried : List (List σ × Bool)
  oracleCalls : List (List σ)
  S : List (List σ)
  SdotA : List (List σ)
  E : List (List σ)
  S_rows : List (List σ × List Bool)
  SdotA_rows : List (List σ × List Bool)
  cur_ce_len : Nat
  max_ce_len : Nat
  dfa : Option (DFA σ)
  deriving DecidableEq

/-- `ObservationTable._query`: consult the cache, else call the teacher and
record the answer. -/
def query (T : List σ → Bool) (tbl : ObservationTable σ) (s : List σ) :
    Bool × ObservationTable σ :=
  match alookup tbl.queried s with
  | some b => (b, tbl)
  | none =>
      let ans := T s
      (ans, { tbl with queried := tbl.queried ++ [(s, ans)],
                       oracleCalls := tbl.oracleCalls ++ [s] })

/-- Query a list of strings in order, threading the cache. -/
def queryMany (T : List σ → Bool) (tbl : ObservationTable σ) :
    List (List σ) → List Bool × ObservationTable σ
  | [] => ([], tbl)
  | s :: rest =>
      let (b, tbl1) := query T tbl s
      let (bs, tbl2) := queryMany T tbl1 rest
      (b :: bs, tbl2)

/-- `ObservationTable._fill_row(s, table)`: extend the stored row of `s` by
the unfilled tail of `E`.  `intoS` selects `S_rows` versus `SdotA_rows`
(the Python code passes the dict itself). -/
def fillRow (T : List σ → Bool) (tbl : ObservationTable σ) (s : List σ)
    (intoS : Bool) : ObservationTable σ :=
  let rows := if intoS then tbl.S_rows else tbl.SdotA_rows
  let row := (alookup rows s).getD []
  let Etail := tbl.E.drop row.length
  if Etail = [] then tbl
  else
    let (ans, tbl1) := queryMany T tbl (Etail.map fun e => s ++ e)
    if intoS then { tbl1 with S_rows := aupdate tbl1.S_rows s (row ++ ans) }
    else { tbl1 with SdotA_rows := aupdate tbl1.SdotA_rows s (row ++ ans) }

/-- `ObservationTable._fill_S_rows`. -/
def fillSRows (T : List σ → Bool) (tbl : ObservationTable σ) : ObservationTable σ :=
  tbl.S.foldl (fun t s => fillRow T t s true) tbl

/-- `ObservationTable._fill_SdotA_rows`. -/
def fillSdotARows (T : List σ → Bool) (tbl : ObservationTable σ) : ObservationTable σ :=
  tbl.SdotA.foldl (fun t s => fillRow T t s false) tbl

/-! ## Construction and the length bound -/

/-- `ObservationTable.__get_max_ce_len`: for a singleton alphabet the source
returns the undefined name `max_ce_iters`, a `NameError`; for an empty
alphabet the `log` call raises.  Otherwise it computes
`log(a, A_size) - 1` where `a = (m+1+A_size)*(A_size-1)+1`, rounding up
when the fractional part is at least `0.8` and down otherwise.  With
`k = Nat.log A_size a = ⌊log_A a⌋` (and `a ≥ A_size`), the result is `k`
in the round-up case and `k - 1` otherwise; the fractional-part test
`log_A a - k ≥ 4/5` is evaluated exactly as `A_size^(5k+4) ≤ a^5`. -/
def getMaxCeLen (Asize m : Nat) : Except Err Nat :=
  if Asize = 1 then .error .nameError
  else if Asize = 0 then .error .mathDomain
  else
    let a := (m + 1 + Asize) * (Asize - 1) + 1
    let k := natLog Asize a
    if Asize ^ (5 * k + 4) ≤ a ^ 5 then .ok k else .ok (k - 1)

/-- `ObservationTable.__init__`.  The alphabet is assumed duplicate-free (a
Python `set`/`str` of distinct symbols); `cap` is the optional user
`max_ce_len` argument, applied only when truthy (nonzero) and strictly
below the computed bound. -/
def mkTable (A : List σ) (T : List σ → Bool) (cap : Option Nat) (m : Nat) :
    Except Err (ObservationTable σ) :=
  let tbl0 : ObservationTable σ :=
    { A := A, queried := [], oracleCalls := [], S := [[]],
      SdotA := A.map fun a => [a], E := [[]], S_rows := [], SdotA_rows := [],
      cur_ce_len := 2, max_ce_len := 0, dfa := none }
  let tbl1 := fillSdotARows T (fillSRows T tbl0)
  match getMaxCeLen A.length m with
  | .error e => .error e
  | .ok n =>
      let n2 := match cap with
        | some c => if c ≠ 0 ∧ c < n then c else n
        | none => n
      .ok { tbl1 with max_ce_len := n2 }

/-! ## Consistency and closedness repair -/

/-- The inner `for a in self.A: for e in self.E` loop of
`make_more_consistent`, for a fixed pair `s1, s2` of equal-row prefixes. -/
def mmcScan (T : List σ → Bool) (s1 s2 : List σ) :
    List (σ × List σ) → ObservationTable σ → Bool × ObservationTable σ
  | [], tbl => (false, tbl)
  | (a, e) :: rest, tbl =>
      let (q1, tbl1) := query T tbl (s1 ++ a :: e)
      let (q2, tbl2) := query T tbl1 (s2 ++ a :: e)
      if q1 ≠ q2 then
        let tbl3 := { tbl2 with E := tbl2.E ++ [a :: e] }
        (true, fillSdotARows T (fillSRows T tbl3))
      else mmcScan T s1 s2 rest tbl2

/-- The outer double loop of `make_more_consistent` over ordered pairs
from `S`. -/
def mmcPairs (T : List σ → Bool) :
    List (List σ × List σ) → ObservationTable σ → Bool × ObservationTable σ
  | [], tbl => (false, tbl)
  | (s1, s2) :: rest, tbl =>
      let row1 := (alookup tbl.S_rows s1).getD []
      let row2 := (alookup tbl.S_rows s2).getD []
      if s1 ≠ s2 ∧ row1 = row2 then
        match mmcScan T s1 s2 (tbl.A.flatMap fun a => tbl.E.map fun e => (a, e)) tbl with
        | (true, tbl2) => (true, tbl2)
        | (false, tbl2) => mmcPairs T rest tbl2
      else mmcPairs T rest tbl

/-- `ObservationTable.make_more_consistent` (a fall-through return of `None`
is the falsy result of the `while` condition, modelled as `false`). -/
def makeMoreConsistent (T : List σ → Bool) (tbl : ObservationTable σ) :
    Bool × ObservationTable σ :=
  mmcPairs T (tbl.S.flatMap fun s1 => tbl.S.map fun s2 => (s1, s2)) tbl

/-- The promotion step of `make_more_closed`: move `s` from `S·A` to `S`
and add its one-symbol extensions to `S·A`. -/
def promote (T : List σ → Bool) (s : List σ) (tbl : ObservationTable σ) :
    ObservationTable σ :=
  let tbl1 := { tbl with S := addElem tbl.S s }
  let tbl2 := fillRow T tbl1 s true
  let tbl3 := { tbl2 with SdotA := tbl2.SdotA.erase s,
                          SdotA_rows := aerase tbl2.SdotA_rows s }
  tbl3.A.foldl (fun t a =>
    let t1 := { t with SdotA := addElem t.SdotA (s ++ [a]) }
    fillRow T t1 (s ++ [a]) false) tbl3

/-- The scan of `make_more_closed` over a snapshot of `SdotA_rows`, with
the snapshot `Sstates` of the set of `S` row values. -/
def mmclScan (T : List σ → Bool) (Sstates : List (List Bool)) :
    List (List σ × List Bool) → ObservationTable σ → Bool × ObservationTable σ
  | [], tbl => (false, tbl)
  | (s, row) :: rest, tbl =>
      if row ∈ Sstates then mmclScan T Sstates rest tbl
      else (true, promote T s tbl)

/-- `ObservationTable.make_more_closed`. -/
def makeMoreClosed (T : List σ → Bool) (tbl : ObservationTable σ) :
    Bool × ObservationTable σ :=
  mmclScan T (tbl.S_rows.map Prod.snd) tbl.SdotA_rows tbl

/-! ## Extraction (`_make_row_to_state_map`, `to_dfa`) -/

/-- The row of `s` as stored in `S_rows`, with the `defaultdict(tuple)`
default. -/
def storedRow (tbl : ObservationTable σ) (s : List σ) : List Bool :=
  (alookup tbl.S_rows s).getD []

/-- The fold of `_make_row_to_state_map` over the length-sorted tail of
`S`. -/
def rmapFold (tbl : ObservationTable σ) :
    List (List σ) → List (List Bool × DState σ) → List (List Bool × DState σ)
  | [], m => m
  | s :: rest, m =>
      rmapFold tbl rest
        (if (alookup m (storedRow tbl s)).isSome then m
         else m ++ [(storedRow tbl s, s)])

/-- `ObservationTable._make_row_to_state_map`: the row of the empty prefix
is named with the literal string `"λ"`; the remaining prefixes are scanned
sorted by length (stable in iteration order) and each unseen row value is
named after the prefix at hand.  The name `"λ"` and the prefix names share
one namespace, as in the source. -/
def makeRowToStateMap (tbl : ObservationTable σ) : List (List Bool × DState σ) :=
  rmapFold tbl ((stableSortLen (fun s => s.length) tbl.S).drop 1)
    [(storedRow tbl [], lamLabel σ)]

/-- The accumulator of the `to_dfa` loop: the transition dictionary and the
`states` and `final_states` sets. -/
structure ExtractAcc (σ : Type) where
  delta : List (DState σ × List (σ × DState σ))
  states : List (DState σ)
  finals : List (DState σ)

/-- One transition insertion of `to_dfa`, including the consistency
`assert`. -/
def addTrans (delta : List (DState σ × List (σ × DState σ)))
    (prev : DState σ) (c : σ) (cur : DState σ) :
    Except Err (List (DState σ × List (σ × DState σ))) :=
  match alookup delta prev with
  | some inner =>
      match alookup inner c with
      | none => .ok (aupdate delta prev (inner ++ [(c, cur)]))
      | some q => if cur = q then .ok delta else .error .inconsistentTable
  | none => .ok (delta ++ [(prev, [(c, cur)])])

/-- The main loop of `to_dfa` over the length-sorted nonempty keys of the
merged table (iterated here as key/row pairs; Python iterates the keys and
looks each row up, which is the same since dict keys are unique). -/
def toDfaLoop (tbl : ObservationTable σ)
    (rmap : List (List Bool × DState σ))
    (combined : List (List σ × List Bool)) :
    List (List σ × List Bool) → ExtractAcc σ → Except Err (ExtractAcc σ)
  | [], acc => .ok acc
  | (s, srow) :: rest, acc =>
      match s.getLast? with
      | none => .error .indexError
      | some c =>
          match alookup combined s.dropLast with
          | none => .error .keyError
          | some prow =>
              match alookup rmap prow with
              | none => .error .keyError
              | some prev =>
                  match alookup rmap srow with
                  | none => .error .keyError
                  | some cur =>
                      match addTrans acc.delta prev c cur with
                      | .error e => .error e
                      | .ok delta2 =>
                          let states2 := addElem (addElem acc.states prev) cur
                          match alookup tbl.queried s.dropLast with
                          | none => .error .keyError
                          | some qp =>
                              match alookup tbl.queried s with
                              | none => .error .keyError
                              | some qs =>
                                  let f1 := if qp then addElem acc.finals prev
                                            else acc.finals
                                  let f2 := if qs then addElem f1 cur else f1
                                  toDfaLoop tbl rmap combined rest
                                    ⟨delta2, states2, f2⟩

/-- The merged table `self.S_rows.copy(); table.update(self.SdotA_rows)`. -/
def combinedTable (tbl : ObservationTable σ) : List (List σ × List Bool) :=
  tbl.SdotA_rows.foldl (fun t p => aupdate t p.1 p.2) tbl.S_rows

/-- `ObservationTable.to_dfa`. -/
def toDfa (tbl : ObservationTable σ) : Except Err (DFA σ) :=
  let rmap := makeRowToStateMap tbl
  match alookup rmap (storedRow tbl []) with
  | none => .error .keyError
  | some init =>
      let combined := combinedTable tbl
      match toDfaLoop tbl rmap combined
          ((stableSortLen (fun p => p.1.length) combined).drop 1)
          ⟨[], [], []⟩ with
      | .error e => .error e
      | .ok acc => .ok ⟨tbl.A, init, acc.finals, acc.states, acc.delta⟩

/-! ## Counterexample search and resolution -/

/-- The `for t in all_words_of_length(...)` scan of `find_counterexample`:
for each candidate the teacher is called directly (bypassing the `queried`
cache) and compared with the automaton; the call log records each teacher
call. -/
def scanWords (T : List σ → Bool) (M : DFA σ) :
    List (List σ) → List (List σ) → Except Err (Option (List σ) × List (List σ))
  | [], log => .ok (none, log)
  | t :: rest, log =>
      let log2 := log ++ [t]
      match recognize M t with
      | .error e => .error e
      | .ok pred => if pred ≠ T t then .ok (some t, log2) else scanWords T M rest log2

/-- The `while True` length loop of `find_counterexample`.  The fuel is the
exact remaining iteration count `max_ce_len + 1 - cur`, so `fuel = 0` iff
`cur > max_ce_len` (the `break`). -/
def fceLoop (T : List σ → Bool) (M : DFA σ) (A : List σ) :
    Nat → Nat → List (List σ) →
    Except Err (Option (List σ) × Nat × List (List σ))
  | 0, cur, log => .ok (none, cur, log)
  | fuel + 1, cur, log =>
      match scanWords T M (allWordsOfLength A cur) log with
      | .error e => .error e
      | .ok (some t, log2) => .ok (some t, cur, log2)
      | .ok (none, log2) => fceLoop T M A fuel (cur + 1) log2

/-- `ObservationTable.find_counterexample`: extract the automaton, store it
in `self.dfa`, and scan lengths from the persisted `cur_ce_len` up to
`max_ce_len`. -/
def findCounterexample (T : List σ → Bool) (tbl : ObservationTable σ) :
    Except Err (Option (List σ) × ObservationTable σ) :=
  match toDfa tbl with
  | .error e => .error e
  | .ok M =>
      let tbl1 := { tbl with dfa := some M }
      match fceLoop T M tbl1.A (tbl1.max_ce_len + 1 - tbl1.cur_ce_len)
          tbl1.cur_ce_len [] with
      | .error e => .error e
      | .ok (res, cur2, log) =>
          .ok (res, { tbl1 with cur_ce_len := cur2,
                                oracleCalls := tbl1.oracleCalls ++ log })

/-- The body of `resolve_counterexample` for one prefix `ce[:i]`. -/
def resolveStep (T : List σ → Bool) (pre : List σ) (tbl : ObservationTable σ) :
    ObservationTable σ :=
  if pre ∈ tbl.S then tbl
  else
    let tbl1 := { tbl with S := tbl.S ++ [pre] }
    let tbl2 := fillRow T tbl1 pre true
    let tbl3 :=
      if pre ∈ tbl2.SdotA then
        { tbl2 with SdotA := tbl2.SdotA.erase pre,
                    SdotA_rows := aerase tbl2.SdotA_rows pre }
      else tbl2
    tbl3.A.foldl (fun t a =>
      let sa := pre ++ [a]
      if sa ∈ t.S then t
      else
        let t1 := { t with SdotA := addElem t.SdotA sa }
        fillRow T t1 sa false) tbl3

/-- `ObservationTable.resolve_counterexample(ce)`: add every prefix of `ce`,
longest first (`range(len(ce)+1, 0, -1)`, whose first two slices both give
`ce` itself; the duplicate is harmless). -/
def resolveCounterexample (T : List σ → Bool) (ce : List σ)
    (tbl : ObservationTable σ) : ObservationTable σ :=
  ((List.range (ce.length + 1)).reverse.map (· + 1)).foldl
    (fun t i => resolveStep T (ce.take i) t) tbl

/-! ## The driver (`lstar`)

The three nested `while True` loops get explicit fuel; `none` means the
fuel ran out before the loop exited (the theorems below are about runs
that did exit). -/

/-- The `while table.make_more_consistent(): pass` loop. -/
def consistLoop (T : List σ → Bool) :
    Nat → ObservationTable σ → Option (ObservationTable σ)
  | 0, _ => none
  | fuel + 1, tbl =>
      match makeMoreConsistent T tbl with
      | (true, tbl2) => consistLoop T fuel tbl2
      | (false, tbl2) => some tbl2

/-- The middle `while True` loop: repair consistency, then one closedness
pass; repeat until the closedness pass reports no change. -/
def repairLoop (T : List σ → Bool) :
    Nat → ObservationTable σ → Option (ObservationTable σ)
  | 0, _ => none
  | fuel + 1, tbl =>
      match consistLoop T (fuel + 1) tbl with
      | none => none
      | some tbl1 =>
          match makeMoreClosed T tbl1 with
          | (true, tbl2) => repairLoop T fuel tbl2
          | (false, tbl2) => some tbl2

/-- The outer loop of `lstar`: repair, search, resolve. -/
def lstarLoop (T : List σ → Bool) :
    Nat → ObservationTable σ → Except Err (Option (ObservationTable σ))
  | 0, _ => .ok none
  | fuel + 1, tbl =>
      match repairLoop T (fuel + 1) tbl with
      | none => .ok none
      | some tbl1 =>
          match findCounterexample T tbl1 with
          | .error e => .error e
          | .ok (none, tbl2) => .ok (some tbl2)
          | .ok (some ce, tbl2) => lstarLoop T fuel (resolveCounterexample T ce tbl2)

/-- The driver `lstar(alphabet, teacher, max_ce_len, max_ce_searches)`. -/
def lstar (A : List σ) (T : List σ → Bool) (cap : Option Nat) (m : Nat)
    (fuel : Nat) : Except Err (Option (ObservationTable σ)) :=
  match mkTable A T cap m with
  | .error e => .error e
  | .ok tbl => lstarLoop T fuel tbl

/-! ## Semantic predicates on observation tables

`rowFn T E s` is the row a prefix `s` denotes semantically: the oracle
answers over the suffix list `E`.  A well-formed table stores exactly
these rows; well-formedness collects the structural invariants that
`__init__`, the repair operations and `resolve_counterexample`
maintain. -/

/-- The semantic row of a prefix over a suffix list. -/
def rowFn (T : List σ → Bool) (E : List (List σ)) (s : List σ) : List Bool :=
  E.map fun e => T (s ++ e)

/-- Structural well-formedness of an observation table with respect to the
oracle `T`: the row dictionaries have exactly `S` and `S·A` as keys and
store the semantic rows; `S` and `S·A` are duplicate-free and disjoint;
`S` contains the empty prefix, is prefix-closed, uses only alphabet
symbols, and every one-symbol extension of an `S` member is tabled;
every `S·A` member is a one-symbol extension of an `S` member; and every
tabled prefix has its oracle answer cached.  All quantifiers are over
lists, so the predicate is decidable on concrete tables. -/
def WellFormed (T : List σ → Bool) (tbl : ObservationTable σ) : Prop :=
  tbl.S_rows.map Prod.fst = tbl.S ∧
  tbl.SdotA_rows.map Prod.fst = tbl.SdotA ∧
  tbl.S.Nodup ∧
  tbl.SdotA.Nodup ∧
  (∀ s ∈ tbl.S, s ∉ tbl.SdotA) ∧
  [] ∈ tbl.S ∧
  (∀ s ∈ tbl.S, s ≠ [] → s.dropLast ∈ tbl.S) ∧
  (∀ s ∈ tbl.S, ∀ c ∈ s, c ∈ tbl.A) ∧
  (∀ s ∈ tbl.S, ∀ a ∈ tbl.A, s ++ [a] ∈ tbl.S ∨ s ++ [a] ∈ tbl.SdotA) ∧
  (∀ t ∈ tbl.SdotA, ∃ s ∈ tbl.S, ∃ a ∈ tbl.A, t = s ++ [a]) ∧
  (∀ p ∈ tbl.S_rows, p.2 = rowFn T tbl.E p.1) ∧
  (∀ p ∈ tbl.SdotA_rows, p.2 = rowFn T tbl.E p.1) ∧
  (∀ s ∈ tbl.S ++ tbl.SdotA, alookup tbl.queried s = some (T s))

/-- The table is closed: every boundary row equals some core row
(semantically; in a well-formed table the stored rows agree). -/
def ClosedTable (T : List σ → Bool) (tbl : ObservationTable σ) : Prop :=
  ∀ t ∈ tbl.SdotA, ∃ s ∈ tbl.S, rowFn T tbl.E t = rowFn T tbl.E s

/-- The table is consistent: distinct equal-row core prefixes agree on
every one-symbol, one-suffix extension (the check of
`make_more_consistent`). -/
def ConsistentTable (T : List σ → Bool) (tbl : ObservationTable σ) : Prop :=
  ∀ s1 ∈ tbl.S, ∀ s2 ∈ tbl.S, s1 ≠ s2 →
    rowFn T tbl.E s1 = rowFn T tbl.E s2 →
    ∀ a ∈ tbl.A, ∀ e ∈ tbl.E, T (s1 ++ a :: e) = T (s2 ++ a :: e)

/-- The number of transitions a DFA transition dictionary holds for a given
source state and symbol. -/
def countTrans (delta : List (DState σ × List (σ × DState σ)))
    (q : DState σ) (c : σ) : Nat :=
  (delta.flatMap fun p => if p.1 = q then p.2.filter (fun cq => cq.1 = c) else []).length

/-- The cumulative number of strings of lengths `2..n` over an alphabet of
the given size (the search space of `find_counterexample`). -/
def geomSum (Asize : Nat) : Nat → Nat
  | 0 => 0
  | 1 => 0
  | n + 2 => geomSum Asize (n + 1) + Asize ^ (n + 2)

/-! ## C3: the unary-alphabet scenario crashes

`__get_max_ce_len` returns the undefined name `max_ce_iters` whenever the
alphabet has exactly one symbol, so constructing the table raises a
`NameError` and `lstar` never runs. -/

/-- The oracle of the spec's concrete scenario 3: length divisible by 3. -/
def multipleOf3T : List Char → Bool := fun s => s.length % 3 = 0

/-- C3: with the single-symbol alphabet `{a}` the driver does not return a
learned automaton at all: for every oracle, every optional cap, every
budget and every fuel, `lstar` fails with the `NameError` for the
undefined name `max_ce_iters` raised while constructing the observation
table. -/
theorem c3_unary_alphabet_crashes (T : List Char → Bool) (cap : Option Nat)
    (m fuel : Nat) : lstar ['a'] T cap m fuel = .error .nameError := rfl

/-- C3, evaluated at the spec's exact scenario: alphabet `{a}`, the
multiple-of-3 oracle and the default parameters. -/
theorem c3_unary_alphabet_crashes_scenario :
    lstar ['a'] multipleOf3T none 100000 1000 = .error .nameError := rfl

/-! ## C8: `next_state` validation

The code checks the two `assert`s only after the `if not a: return q`
shortcut, so an empty-string symbol returns the state unchanged with no
validation at all — even an undeclared state is returned as is. -/

/-- A one-state automaton over `{a}` used to exhibit the unchecked
empty-symbol path. -/
def c8M : DFA Char :=
  { A := ['a'], q0 := ['λ'], F := [], Q := [['λ']],
    d := [(['λ'], [('a', ['λ'])])] }

/-- C8 counterexample: with the state `"z"` outside the declared state
set and the empty string as symbol (outside the declared alphabet),
`next_state` does not fail: it returns the unknown state unchanged. -/
theorem c8_empty_symbol_unchecked :
    nextState c8M ['z'] [] = .ok ['z'] ∧
    (['z'] : DState Char) ∉ c8M.Q ∧
    symOf c8M.A [] = none := by
  refine ⟨rfl, by decide, rfl⟩

/-- C8 amended: for a nonempty symbol the two asserts fire as the claim
says — an undeclared state raises `UnknownStateError`, and a declared
state with a symbol outside the alphabet raises `UnknownSymbolError` —
but the empty-string symbol returns the given state unchanged without
any validation. -/
theorem c8_next_state_validation (M : DFA σ) (q : DState σ) (a : List σ) :
    (a = [] → nextState M q a = .ok q) ∧
    (a ≠ [] → q ∉ M.Q → nextState M q a = .error .unknownState) ∧
    (a ≠ [] → q ∈ M.Q → symOf M.A a = none →
      nextState M q a = .error .unknownSymbol) := by
  refine ⟨fun h => by simp [nextState, h], fun h hq => ?_, fun h hq hs => ?_⟩
  · simp [nextState, h, hq]
  · simp [nextState, h, hq, hs]

/-- Witness for the amended C8 at concrete inputs. -/
theorem c8_next_state_validation_witness :
    nextState c8M ['z'] ['a'] = .error .unknownState ∧
    nextState c8M ['λ'] ['z'] = .error .unknownSymbol :=
  ⟨(c8_next_state_validation c8M ['z'] ['a']).2.1
      (by decide) (by decide),
   (c8_next_state_validation c8M ['λ'] ['z']).2.2
      (by decide) (by decide) (by decide)⟩

/-! ## C6: the query-budget bound

With `a = (m+1+A)(A-1)+1` and exact arithmetic, the real solution `n*` of
`sum_{x=1}^{n} A^x = a`-ish satisfies `sum_{x=2}^{n*} A^x = m` exactly, so
flooring keeps the enumerable search space within the budget — but the
`0.8` heuristic rounds *up* when the fractional part is at least `0.8`,
and then the space of lengths `2..n` overshoots `m`. -/

theorem natLogGo_spec (b a : Nat) (hb : 2 ≤ b) :
    ∀ fuel k, b ^ k ≤ a → k + fuel = a →
      b ^ natLogGo b a fuel k ≤ a ∧ a < b ^ (natLogGo b a fuel k + 1) := by
  intro fuel
  induction fuel with
  | zero =>
      intro k hk hka
      have hk2 : k = a := by omega
      subst hk2
      have h1 : k < 2 ^ k := Nat.lt_two_pow k
      have h2 : (2 : Nat) ^ k ≤ b ^ k := Nat.pow_le_pow_left hb k
      omega
  | succ fuel ih =>
      intro k hk hka
      simp only [natLogGo]
      split
      · exact ih (k + 1) (by assumption) (by omega)
      · exact ⟨hk, by omega⟩

theorem natLog_spec (b a : Nat) (hb : 2 ≤ b) (ha : 1 ≤ a) :
    b ^ natLog b a ≤ a ∧ a < b ^ (natLog b a + 1) :=
  natLogGo_spec b a hb a 0 (by simpa using ha) (by omega)

theorem natLog_ge_two (b a : Nat) (hb : 2 ≤ b) (ha : b ^ 2 ≤ a) :
    2 ≤ natLog b a := by
  by_contra h
  have h2 := (natLog_spec b a hb (by nlinarith)).2
  have h3 : natLog b a + 1 ≤ 2 := by omega
  have h4 : b ^ (natLog b a + 1) ≤ b ^ 2 := Nat.pow_le_pow_right (by omega) h3
  omega

theorem geomSum_closed (B : Nat) :
    ∀ n, 1 ≤ n →
      (B + 1) * geomSum (B + 2) n + (B + 2) ^ 2 = (B + 2) ^ (n + 1) := by
  intro n
  induction n with
  | zero => omega
  | succ n ih =>
      intro _
      cases n with
      | zero => simp [geomSum]
      | succ p =>
          have h := ih (by omega)
          show (B + 1) * geomSum (B + 2) (p + 2) + (B + 2) ^ 2 = (B + 2) ^ (p + 3)
          have hs : geomSum (B + 2) (p + 2) =
              geomSum (B + 2) (p + 1) + (B + 2) ^ (p + 2) := rfl
          rw [hs]
          calc (B + 1) * (geomSum (B + 2) (p + 1) + (B + 2) ^ (p + 2)) + (B + 2) ^ 2
              = ((B + 1) * geomSum (B + 2) (p + 1) + (B + 2) ^ 2) +
                  (B + 1) * (B + 2) ^ (p + 2) := by ring
            _ = (B + 2) ^ (p + 2) + (B + 1) * (B + 2) ^ (p + 2) := by rw [h]
            _ = (B + 2) ^ (p + 2) * (B + 2) := by ring
            _ = (B + 2) ^ (p + 3) := by rw [← pow_succ]

theorem geomSum_le_succ (Asize n : Nat) : geomSum Asize n ≤ geomSum Asize (n + 1) := by
  cases n with
  | zero => simp [geomSum]
  | succ p => exact Nat.le_add_right _ _

theorem geomSum_mono (Asize : Nat) {n n2 : Nat} (h : n ≤ n2) :
    geomSum Asize n ≤ geomSum Asize n2 := by
  induction n2 with
  | zero => simp [Nat.le_zero.mp h]
  | succ p ih =>
      rcases Nat.lt_or_ge n (p + 1) with h2 | h2
      · exact le_trans (ih (by omega)) (geomSum_le_succ Asize p)
      · have : n = p + 1 := by omega
        simp [this]

/-- The central budget inequality: the search space of lengths
`2 .. ⌊log_A a⌋ - 1` fits in the budget `m`. -/
theorem geomSum_budget (Asize m : Nat) (hA : 2 ≤ Asize) :
    geomSum Asize (natLog Asize ((m + 1 + Asize) * (Asize - 1) + 1) - 1) ≤ m := by
  obtain ⟨B, rfl⟩ : ∃ B, Asize = B + 2 := ⟨Asize - 2, by omega⟩
  have ha2 : (m + 1 + (B + 2)) * ((B + 2) - 1) + 1 = m * (B + 1) + (B + 2) ^ 2 := by
    have h1 : (B + 2) - 1 = B + 1 := by omega
    rw [h1]; ring
  set a := (m + 1 + (B + 2)) * ((B + 2) - 1) + 1 with hadef
  set k := natLog (B + 2) a with hk
  have hk1 : (B + 2) ^ k ≤ a := (natLog_spec (B + 2) a (by omega) (by omega)).1
  have hk2 : 2 ≤ k := natLog_ge_two (B + 2) a (by omega) (by rw [ha2]; omega)
  have hcf := geomSum_closed B (k - 1) (by omega)
  have hke : (k - 1) + 1 = k := by omega
  rw [hke] at hcf
  rw [← hcf, ha2] at hk1
  have h5 : (B + 1) * geomSum (B + 2) (k - 1) ≤ m * (B + 1) := by omega
  have h6 : (B + 1) * geomSum (B + 2) (k - 1) ≤ (B + 1) * m := by
    calc (B + 1) * geomSum (B + 2) (k - 1) ≤ m * (B + 1) := h5
      _ = (B + 1) * m := by ring
  exact Nat.le_of_mul_le_mul_left h6 (by omega)

/-- C6 counterexample: with a two-symbol alphabet and the budget
`B = 7996`, the fractional part of `log_2(8000) - 1 ≈ 11.966` is above
`0.8`, the bound rounds up to `12`, and the strings of lengths `2..12`
number `8188 > 7996` — the enumerable search space exceeds the budget. -/
theorem c6_budget_exceeded :
    getMaxCeLen 2 7996 = .ok 12 ∧ geomSum 2 12 = 8188 ∧ 7996 < 8188 := by
  refine ⟨by decide, by decide, by decide⟩

/-- C6 amended: for every alphabet size `≥ 2` and every budget `m`, the
computed bound `n` keeps the strings of lengths `2..n-1` within the
budget, and when the `0.8` heuristic rounds down (the result is
`⌊log_A a⌋ - 1`) the strings of lengths `2..n` also fit; only the
round-up case can overshoot. -/
theorem c6_budget_amended (Asize m n : Nat) (hA : 2 ≤ Asize)
    (hn : getMaxCeLen Asize m = .ok n) :
    geomSum Asize (n - 1) ≤ m ∧
    (n + 1 = natLog Asize ((m + 1 + Asize) * (Asize - 1) + 1) →
      geomSum Asize n ≤ m) := by
  have hb := geomSum_budget Asize m hA
  have hn2 : n = natLog Asize ((m + 1 + Asize) * (Asize - 1) + 1) ∨
      n = natLog Asize ((m + 1 + Asize) * (Asize - 1) + 1) - 1 := by
    revert hn
    unfold getMaxCeLen
    have h1 : Asize ≠ 1 := by omega
    have h0 : Asize ≠ 0 := by omega
    simp only [h1, h0, if_false]
    split
    · intro h; exact Or.inl (by cases h; rfl)
    · intro h; exact Or.inr (by cases h; rfl)
  constructor
  · rcases hn2 with h | h <;> subst h
    · exact le_trans (geomSum_mono Asize (by omega)) hb
    · exact le_trans (geomSum_mono Asize (by omega)) hb
  · intro he
    have : n ≤ natLog Asize ((m + 1 + Asize) * (Asize - 1) + 1) - 1 := by omega
    exact le_trans (geomSum_mono Asize this) hb

/-- Witness for the amended C6 at the default budget: alphabet size 2,
budget 100000; the bound is 15 (round-down case) and both conjuncts
evaluate. -/
theorem c6_budget_amended_witness :
    geomSum 2 (15 - 1) ≤ 100000 ∧
    (15 + 1 = natLog 2 ((100000 + 1 + 2) * (2 - 1) + 1) →
      geomSum 2 15 ≤ 100000) :=
  c6_budget_amended 2 100000 15 (by decide) (by decide)

/-! ## Field-preservation lemmas

`E` is only ever changed by the append in `make_more_consistent`;
`queried` is only ever changed by the append in `_query`.  The following
lemmas track this through every operation. -/

theorem query_E (T : List σ → Bool) (tbl : ObservationTable σ) (s : List σ) :
    (query T tbl s).2.E = tbl.E := by
  unfold query; split <;> rfl

theorem query_cached (T : List σ → Bool) (tbl : ObservationTable σ)
    (s : List σ) (b : Bool) (h : alookup tbl.queried s = some b) :
    query T tbl s = (b, tbl) := by
  unfold query; rw [h]

theorem query_queried (T : List σ → Bool) (tbl : ObservationTable σ)
    (s : List σ) : ∃ tl, (query T tbl s).2.queried = tbl.queried ++ tl := by
  unfold query; split
  · exact ⟨[], by simp⟩
  · exact ⟨_, rfl⟩

theorem queryMany_E (T : List σ → Bool) :
    ∀ (l : List (List σ)) (tbl : ObservationTable σ),
      (queryMany T tbl l).2.E = tbl.E := by
  intro l
  induction l with
  | nil => intro tbl; rfl
  | cons s rest ih =>
      intro tbl
      simp only [queryMany]
      rw [ih, query_E]

theorem queryMany_queried (T : List σ → Bool) :
    ∀ (l : List (List σ)) (tbl : ObservationTable σ),
      ∃ tl, (queryMany T tbl l).2.queried = tbl.queried ++ tl := by
  intro l
  induction l with
  | nil => intro tbl; exact ⟨[], by simp [queryMany]⟩
  | cons s rest ih =>
      intro tbl
      simp only [queryMany]
      obtain ⟨tl1, h1⟩ := query_queried T tbl s
      obtain ⟨tl2, h2⟩ := ih (query T tbl s).2
      exact ⟨tl1 ++ tl2, by rw [h2, h1, List.append_assoc]⟩

theorem fillRow_E (T : List σ → Bool) (tbl : ObservationTable σ)
    (s : List σ) (intoS : Bool) : (fillRow T tbl s intoS).E = tbl.E := by
  unfold fillRow
  split <;>
    (dsimp only
     split
     · rfl
     · exact queryMany_E T _ tbl)

theorem fillRow_queried (T : List σ → Bool) (tbl : ObservationTable σ)
    (s : List σ) (intoS : Bool) :
    ∃ tl, (fillRow T tbl s intoS).queried = tbl.queried ++ tl := by
  unfold fillRow
  split <;>
    (dsimp only
     split
     · exact ⟨[], by simp⟩
     · exact queryMany_queried T _ tbl)

theorem foldl_E {β : Type} (f : ObservationTable σ → β → ObservationTable σ)
    (hf : ∀ t x, (f t x).E = t.E) :
    ∀ (l : List β) (tbl : ObservationTable σ), (l.foldl f tbl).E = tbl.E := by
  intro l
  induction l with
  | nil => intro tbl; rfl
  | cons x rest ih => intro tbl; simp only [List.foldl]; rw [ih, hf]

theorem foldl_queried {β : Type} (f : ObservationTable σ → β → ObservationTable σ)
    (hf : ∀ t x, ∃ tl, (f t x).queried = t.queried ++ tl) :
    ∀ (l : List β) (tbl : ObservationTable σ),
      ∃ tl, (l.foldl f tbl).queried = tbl.queried ++ tl := by
  intro l
  induction l with
  | nil => intro tbl; exact ⟨[], by simp⟩
  | cons x rest ih =>
      intro tbl
      simp only [List.foldl]
      obtain ⟨tl1, h1⟩ := hf tbl x
      obtain ⟨tl2, h2⟩ := ih (f tbl x)
      exact ⟨tl1 ++ tl2, by rw [h2, h1, List.append_assoc]⟩

theorem fillSRows_E (T : List σ → Bool) (tbl : ObservationTable σ) :
    (fillSRows T tbl).E = tbl.E :=
  foldl_E _ (fun t x => fillRow_E T t x true) tbl.S tbl

theorem fillSdotARows_E (T : List σ → Bool) (tbl : ObservationTable σ) :
    (fillSdotARows T tbl).E = tbl.E :=
  foldl_E _ (fun t x => fillRow_E T t x false) tbl.SdotA tbl

theorem fillSRows_queried (T : List σ → Bool) (tbl : ObservationTable σ) :
    ∃ tl, (fillSRows T tbl).queried = tbl.queried ++ tl :=
  foldl_queried _ (fun t x => fillRow_queried T t x true) tbl.S tbl

theorem fillSdotARows_queried (T : List σ → Bool) (tbl : ObservationTable σ) :
    ∃ tl, (fillSdotARows T tbl).queried = tbl.queried ++ tl :=
  foldl_queried _ (fun t x => fillRow_queried T t x false) tbl.SdotA tbl

theorem mmcScan_E (T : List σ → Bool) (s1 s2 : List σ) :
    ∀ (pairs : List (σ × List σ)) (tbl : ObservationTable σ),
      ∃ tl, (mmcScan T s1 s2 pairs tbl).2.E = tbl.E ++ tl := by
  intro pairs
  induction pairs with
  | nil => intro tbl; exact ⟨[], by simp [mmcScan]⟩
  | cons p rest ih =>
      intro tbl
      obtain ⟨a, e⟩ := p
      simp only [mmcScan]
      split
      · refine ⟨[a :: e], ?_⟩
        rw [fillSdotARows_E, fillSRows_E]
        simp [query_E]
      · obtain ⟨tl, h⟩ := ih (query T (query T tbl (s1 ++ a :: e)).2 (s2 ++ a :: e)).2
        rw [query_E, query_E] at h
        exact ⟨tl, h⟩

theorem mmcScan_queried (T : List σ → Bool) (s1 s2 : List σ) :
    ∀ (pairs : List (σ × List σ)) (tbl : ObservationTable σ),
      ∃ tl, (mmcScan T s1 s2 pairs tbl).2.queried = tbl.queried ++ tl := by
  intro pairs
  induction pairs with
  | nil => intro tbl; exact ⟨[], by simp [mmcScan]⟩
  | cons p rest ih =>
      intro tbl
      obtain ⟨a, e⟩ := p
      simp only [mmcScan]
      obtain ⟨tq1, hq1⟩ := query_queried T tbl (s1 ++ a :: e)
      obtain ⟨tq2, hq2⟩ := query_queried T (query T tbl (s1 ++ a :: e)).2 (s2 ++ a :: e)
      split
      · obtain ⟨tq4, hq4⟩ := fillSRows_queried T
          { (query T (query T tbl (s1 ++ a :: e)).2 (s2 ++ a :: e)).2 with
            E := (query T (query T tbl (s1 ++ a :: e)).2 (s2 ++ a :: e)).2.E ++ [a :: e] }
        obtain ⟨tq5, hq5⟩ := fillSdotARows_queried T
          (fillSRows T { (query T (query T tbl (s1 ++ a :: e)).2 (s2 ++ a :: e)).2 with
            E := (query T (query T tbl (s1 ++ a :: e)).2 (s2 ++ a :: e)).2.E ++ [a :: e] })
        refine ⟨tq1 ++ tq2 ++ tq4 ++ tq5, ?_⟩
        simp only []
        rw [hq5, hq4]
        simp only []
        rw [hq2, hq1]
        simp [List.append_assoc]
      · obtain ⟨tl, h⟩ := ih (query T (query T tbl (s1 ++ a :: e)).2 (s2 ++ a :: e)).2
        rw [hq2, hq1] at h
        exact ⟨tq1 ++ tq2 ++ tl, by rw [h]; simp [List.append_assoc]⟩

theorem mmcPairs_E (T : List σ → Bool) :
    ∀ (ps : List (List σ × List σ)) (tbl : ObservationTable σ),
      ∃ tl, (mmcPairs T ps tbl).2.E = tbl.E ++ tl := by
  intro ps
  induction ps with
  | nil => intro tbl; exact ⟨[], by simp [mmcPairs]⟩
  | cons p rest ih =>
      intro tbl
      obtain ⟨s1, s2⟩ := p
      simp only [mmcPairs]
      split
      · obtain ⟨tl0, h0⟩ := mmcScan_E T s1 s2
          (tbl.A.flatMap fun a => tbl.E.map fun e => (a, e)) tbl
        split
        next heq =>
          rw [heq] at h0
          exact ⟨tl0, h0⟩
        next heq =>
          obtain ⟨tl1, h1⟩ := ih
            (mmcScan T s1 s2 (tbl.A.flatMap fun a => tbl.E.map fun e => (a, e)) tbl).2
          rw [heq] at h0 h1
          simp only [] at h0 h1
          exact ⟨tl0 ++ tl1, by rw [h1, h0, List.append_assoc]⟩
      · exact ih tbl

theorem mmcPairs_queried (T : List σ → Bool) :
    ∀ (ps : List (List σ × List σ)) (tbl : ObservationTable σ),
      ∃ tl, (mmcPairs T ps tbl).2.queried = tbl.queried ++ tl := by
  intro ps
  induction ps with
  | nil => intro tbl; exact ⟨[], by simp [mmcPairs]⟩
  | cons p rest ih =>
      intro tbl
      obtain ⟨s1, s2⟩ := p
      simp only [mmcPairs]
      split
      · obtain ⟨tl0, h0⟩ := mmcScan_queried T s1 s2
          (tbl.A.flatMap fun a => tbl.E.map fun e => (a, e)) tbl
        split
        next heq =>
          rw [heq] at h0
          exact ⟨tl0, h0⟩
        next heq =>
          obtain ⟨tl1, h1⟩ := ih
            (mmcScan T s1 s2 (tbl.A.flatMap fun a => tbl.E.map fun e => (a, e)) tbl).2
          rw [heq] at h0 h1
          simp only [] at h0 h1
          exact ⟨tl0 ++ tl1, by rw [h1, h0, List.append_assoc]⟩
      · exact ih tbl

theorem makeMoreConsistent_E (T : List σ → Bool) (tbl : ObservationTable σ) :
    ∃ tl, (makeMoreConsistent T tbl).2.E = tbl.E ++ tl :=
  mmcPairs_E T _ tbl

theorem makeMoreConsistent_queried (T : List σ → Bool) (tbl : ObservationTable σ) :
    ∃ tl, (makeMoreConsistent T tbl).2.queried = tbl.queried ++ tl :=
  mmcPairs_queried T _ tbl

theorem promote_E (T : List σ → Bool) (s : List σ) (tbl : ObservationTable σ) :
    (promote T s tbl).E = tbl.E := by
  unfold promote
  rw [foldl_E]
  · simp [fillRow_E]
  · intro t x; simp [fillRow_E]

theorem promote_queried (T : List σ → Bool) (s : List σ) (tbl : ObservationTable σ) :
    ∃ tl, (promote T s tbl).queried = tbl.queried ++ tl := by
  unfold promote
  obtain ⟨tl1, h1⟩ := foldl_queried
    (fun t a => fillRow T { t with SdotA := addElem t.SdotA (s ++ [a]) } (s ++ [a]) false)
    (fun t x => fillRow_queried T { t with SdotA := addElem t.SdotA (s ++ [x]) } (s ++ [x]) false)
    _ _
  obtain ⟨tl2, h2⟩ := fillRow_queried T { tbl with S := addElem tbl.S s } s true
  refine ⟨tl2 ++ tl1, ?_⟩
  rw [h1]
  simp only []
  rw [h2]
  simp [List.append_assoc]

theorem mmclScan_E (T : List σ → Bool) (Sstates : List (List Bool)) :
    ∀ (items : List (List σ × List Bool)) (tbl : ObservationTable σ),
      (mmclScan T Sstates items tbl).2.E = tbl.E := by
  intro items
  induction items with
  | nil => intro tbl; rfl
  | cons p rest ih =>
      intro tbl
      obtain ⟨s, row⟩ := p
      simp only [mmclScan]
      split
      · exact ih tbl
      · exact promote_E T s tbl

theorem mmclScan_queried (T : List σ → Bool) (Sstates : List (List Bool)) :
    ∀ (items : List (List σ × List Bool)) (tbl : ObservationTable σ),
      ∃ tl, (mmclScan T Sstates items tbl).2.queried = tbl.queried ++ tl := by
  intro items
  induction items with
  | nil => intro tbl; exact ⟨[], by simp [mmclScan]⟩
  | cons p rest ih =>
      intro tbl
      obtain ⟨s, row⟩ := p
      simp only [mmclScan]
      split
      · exact ih tbl
      · exact promote_queried T s tbl

theorem makeMoreClosed_E (T : List σ → Bool) (tbl : ObservationTable σ) :
    (makeMoreClosed T tbl).2.E = tbl.E :=
  mmclScan_E T _ _ tbl

theorem makeMoreClosed_queried (T : List σ → Bool) (tbl : ObservationTable σ) :
    ∃ tl, (makeMoreClosed T tbl).2.queried = tbl.queried ++ tl :=
  mmclScan_queried T _ _ tbl

theorem resolveStep_E (T : List σ → Bool) (pre : List σ) (tbl : ObservationTable σ) :
    (resolveStep T pre tbl).E = tbl.E := by
  unfold resolveStep
  split
  · rfl
  · rw [foldl_E]
    · split <;> simp [fillRow_E]
    · intro t x
      dsimp only
      split
      · rfl
      · simp [fillRow_E]

theorem qext_foldl_of {β : Type} (f : ObservationTable σ → β → ObservationTable σ)
    (hf : ∀ t x, ∃ tl, (f t x).queried = t.queried ++ tl) (l : List β) :
    ∀ (t0 tbl : ObservationTable σ), (∃ tl, t0.queried = tbl.queried ++ tl) →
      ∃ tl, (l.foldl f t0).queried = tbl.queried ++ tl := by
  intro t0 tbl h0
  obtain ⟨tl0, h0⟩ := h0
  obtain ⟨tl1, h1⟩ := foldl_queried f hf l t0
  exact ⟨tl0 ++ tl1, by rw [h1, h0, List.append_assoc]⟩

theorem resolveStep_queried (T : List σ → Bool) (pre : List σ)
    (tbl : ObservationTable σ) :
    ∃ tl, (resolveStep T pre tbl).queried = tbl.queried ++ tl := by
  unfold resolveStep
  split
  · exact ⟨[], by simp⟩
  · dsimp only
    apply qext_foldl_of
    · intro t x
      dsimp only
      split
      · exact ⟨[], by simp⟩
      · exact fillRow_queried T _ _ false
    · obtain ⟨tl2, h2⟩ := fillRow_queried T { tbl with S := tbl.S ++ [pre] } pre true
      split
      · exact ⟨tl2, h2⟩
      · exact ⟨tl2, h2⟩

theorem resolveCounterexample_E (T : List σ → Bool) (ce : List σ)
    (tbl : ObservationTable σ) :
    (resolveCounterexample T ce tbl).E = tbl.E :=
  foldl_E _ (fun t i => resolveStep_E T (ce.take i) t) _ tbl

theorem resolveCounterexample_queried (T : List σ → Bool) (ce : List σ)
    (tbl : ObservationTable σ) :
    ∃ tl, (resolveCounterexample T ce tbl).queried = tbl.queried ++ tl :=
  foldl_queried _ (fun t i => resolveStep_queried T (ce.take i) t) _ tbl

theorem findCounterexample_E (T : List σ → Bool) (tbl : ObservationTable σ)
    (res : Option (List σ)) (tbl2 : ObservationTable σ)
    (h : findCounterexample T tbl = .ok (res, tbl2)) : tbl2.E = tbl.E := by
  unfold findCounterexample at h
  split at h
  · cases h
  · dsimp only at h
    split at h
    · cases h
    · cases h; rfl

theorem findCounterexample_queried (T : List σ → Bool) (tbl : ObservationTable σ)
    (res : Option (List σ)) (tbl2 : ObservationTable σ)
    (h : findCounterexample T tbl = .ok (res, tbl2)) : tbl2.queried = tbl.queried := by
  unfold findCounterexample at h
  split at h
  · cases h
  · dsimp only at h
    split at h
    · cases h
    · cases h; rfl

/-! ## `cur_ce_len` is touched only by `find_counterexample` -/

theorem query_cur (T : List σ → Bool) (tbl : ObservationTable σ) (s : List σ) :
    (query T tbl s).2.cur_ce_len = tbl.cur_ce_len := by
  unfold query; split <;> rfl

theorem queryMany_cur (T : List σ → Bool) :
    ∀ (l : List (List σ)) (tbl : ObservationTable σ),
      (queryMany T tbl l).2.cur_ce_len = tbl.cur_ce_len := by
  intro l
  induction l with
  | nil => intro tbl; rfl
  | cons s rest ih => intro tbl; simp only [queryMany]; rw [ih, query_cur]

theorem fillRow_cur (T : List σ → Bool) (tbl : ObservationTable σ)
    (s : List σ) (intoS : Bool) :
    (fillRow T tbl s intoS).cur_ce_len = tbl.cur_ce_len := by
  unfold fillRow
  split <;>
    (dsimp only
     split
     · rfl
     · exact queryMany_cur T _ tbl)

theorem foldl_cur {β : Type} (f : ObservationTable σ → β → ObservationTable σ)
    (hf : ∀ t x, (f t x).cur_ce_len = t.cur_ce_len) :
    ∀ (l : List β) (tbl : ObservationTable σ),
      (l.foldl f tbl).cur_ce_len = tbl.cur_ce_len := by
  intro l
  induction l with
  | nil => intro tbl; rfl
  | cons x rest ih => intro tbl; simp only [List.foldl]; rw [ih, hf]

theorem fillSRows_cur (T : List σ → Bool) (tbl : ObservationTable σ) :
    (fillSRows T tbl).cur_ce_len = tbl.cur_ce_len :=
  foldl_cur _ (fun t x => fillRow_cur T t x true) tbl.S tbl

theorem fillSdotARows_cur (T : List σ → Bool) (tbl : ObservationTable σ) :
    (fillSdotARows T tbl).cur_ce_len = tbl.cur_ce_len :=
  foldl_cur _ (fun t x => fillRow_cur T t x false) tbl.SdotA tbl

theorem mmcScan_cur (T : List σ → Bool) (s1 s2 : List σ) :
    ∀ (pairs : List (σ × List σ)) (tbl : ObservationTable σ),
      (mmcScan T s1 s2 pairs tbl).2.cur_ce_len = tbl.cur_ce_len := by
  intro pairs
  induction pairs with
  | nil => intro tbl; rfl
  | cons p rest ih =>
      intro tbl
      obtain ⟨a, e⟩ := p
      simp only [mmcScan]
      split
      · rw [fillSdotARows_cur, fillSRows_cur]
        simp [query_cur]
      · rw [ih, query_cur, query_cur]

theorem mmcPairs_cur (T : List σ → Bool) :
    ∀ (ps : List (List σ × List σ)) (tbl : ObservationTable σ),
      (mmcPairs T ps tbl).2.cur_ce_len = tbl.cur_ce_len := by
  intro ps
  induction ps with
  | nil => intro tbl; rfl
  | cons p rest ih =>
      intro tbl
      obtain ⟨s1, s2⟩ := p
      simp only [mmcPairs]
      split
      · split
        next heq =>
          have h0 := mmcScan_cur T s1 s2
            (tbl.A.flatMap fun a => tbl.E.map fun e => (a, e)) tbl
          rw [heq] at h0
          exact h0
        next heq =>
          have h0 := mmcScan_cur T s1 s2
            (tbl.A.flatMap fun a => tbl.E.map fun e => (a, e)) tbl
          rw [heq] at h0
          rw [ih, h0]
      · exact ih tbl

theorem makeMoreConsistent_cur (T : List σ → Bool) (tbl : ObservationTable σ) :
    (makeMoreConsistent T tbl).2.cur_ce_len = tbl.cur_ce_len :=
  mmcPairs_cur T _ tbl

theorem promote_cur (T : List σ → Bool) (s : List σ) (tbl : ObservationTable σ) :
    (promote T s tbl).cur_ce_len = tbl.cur_ce_len := by
  unfold promote
  rw [foldl_cur]
  · simp [fillRow_cur]
  · intro t x; simp [fillRow_cur]

theorem mmclScan_cur (T : List σ → Bool) (Sstates : List (List Bool)) :
    ∀ (items : List (List σ × List Bool)) (tbl : ObservationTable σ),
      (mmclScan T Sstates items tbl).2.cur_ce_len = tbl.cur_ce_len := by
  intro items
  induction items with
  | nil => intro tbl; rfl
  | cons p rest ih =>
      intro tbl
      obtain ⟨s, row⟩ := p
      simp only [mmclScan]
      split
      · exact ih tbl
      · exact promote_cur T s tbl

theorem makeMoreClosed_cur (T : List σ → Bool) (tbl : ObservationTable σ) :
    (makeMoreClosed T tbl).2.cur_ce_len = tbl.cur_ce_len :=
  mmclScan_cur T _ _ tbl

theorem resolveStep_cur (T : List σ → Bool) (pre : List σ)
    (tbl : ObservationTable σ) :
    (resolveStep T pre tbl).cur_ce_len = tbl.cur_ce_len := by
  unfold resolveStep
  split
  · rfl
  · rw [foldl_cur]
    · split <;> simp [fillRow_cur]
    · intro t x
      dsimp only
      split
      · rfl
      · simp [fillRow_cur]

theorem resolveCounterexample_cur (T : List σ → Bool) (ce : List σ)
    (tbl : ObservationTable σ) :
    (resolveCounterexample T ce tbl).cur_ce_len = tbl.cur_ce_len :=
  foldl_cur _ (fun t i => resolveStep_cur T (ce.take i) t) _ tbl

/-! ## The table constructor -/

theorem mkTable_E (A : List σ) (T : List σ → Bool) (cap : Option Nat) (m : Nat)
    (tbl : ObservationTable σ) (h : mkTable A T cap m = .ok tbl) :
    tbl.E = [[]] := by
  unfold mkTable at h
  dsimp only at h
  split at h
  · cases h
  · cases h
    show (fillSdotARows T (fillSRows T _)).E = [[]]
    rw [fillSdotARows_E, fillSRows_E]

theorem mkTable_cur (A : List σ) (T : List σ → Bool) (cap : Option Nat) (m : Nat)
    (tbl : ObservationTable σ) (h : mkTable A T cap m = .ok tbl) :
    tbl.cur_ce_len = 2 := by
  unfold mkTable at h
  dsimp only at h
  split at h
  · cases h
  · cases h
    show (fillSdotARows T (fillSRows T _)).cur_ce_len = 2
    rw [fillSdotARows_cur, fillSRows_cur]

/-! ## C9: the suffix list `E` only grows by appending -/

/-- C9: at construction `E` is exactly the singleton list of the empty
suffix, consistency repair only appends to `E` (the previous value is a
prefix of the new one), closedness repair, counterexample resolution and
the counterexample search leave `E` unchanged, and membership of the empty
suffix is preserved by every operation. -/
theorem c9_E_append_only :
    (∀ (A : List σ) (T : List σ → Bool) (cap : Option Nat) (m : Nat)
        (tbl : ObservationTable σ),
      mkTable A T cap m = .ok tbl → tbl.E = [[]]) ∧
    (∀ (T : List σ → Bool) (tbl : ObservationTable σ),
      ∃ tl, (makeMoreConsistent T tbl).2.E = tbl.E ++ tl) ∧
    (∀ (T : List σ → Bool) (tbl : ObservationTable σ),
      (makeMoreClosed T tbl).2.E = tbl.E) ∧
    (∀ (T : List σ → Bool) (ce : List σ) (tbl : ObservationTable σ),
      (resolveCounterexample T ce tbl).E = tbl.E) ∧
    (∀ (T : List σ → Bool) (tbl : ObservationTable σ) (res : Option (List σ))
        (tbl2 : ObservationTable σ),
      findCounterexample T tbl = .ok (res, tbl2) → tbl2.E = tbl.E) ∧
    (∀ (T : List σ → Bool) (tbl : ObservationTable σ),
      [] ∈ tbl.E → [] ∈ (makeMoreConsistent T tbl).2.E) := by
  refine ⟨mkTable_E, makeMoreConsistent_E, makeMoreClosed_E,
    resolveCounterexample_E, findCounterexample_E, ?_⟩
  intro T tbl hmem
  obtain ⟨tl, h⟩ := makeMoreConsistent_E T tbl
  rw [h]
  exact List.mem_append_left tl hmem

/-! ## Concrete runs

`runT` recognizes the language of all strings of length 1 or 2 together
with `"aaa"` over the alphabet `{a, b}`.  With `max_ce_searches = 20` the
computed `max_ce_len` is 3, and the whole learning run is small enough to
evaluate inside the kernel.  The intermediate tables below are the states
of that run (checked against the driver by `decide` in the theorems). -/

/-- The oracle of the concrete run: strings of length 1 or 2, plus `aaa`. -/
def runT : List Char → Bool :=
  fun s => decide ((1 ≤ s.length ∧ s.length ≤ 2) ∨ s = ['a', 'a', 'a'])

/-- The table right after `ObservationTable.__init__` for `runT`. -/
def tblInit : ObservationTable Char :=
  { A := ['a', 'b'],
    queried := [([], false), (['a'], true), (['b'], true)],
    oracleCalls := [[], ['a'], ['b']],
    S := [[]],
    SdotA := [['a'], ['b']],
    E := [[]],
    S_rows := [([], [false])],
    SdotA_rows := [(['a'], [true]), (['b'], [true])],
    cur_ce_len := 2, max_ce_len := 3,
    dfa := none }

/-- The table once the repair loop reports closed and consistent. -/
def tblRepaired : ObservationTable Char :=
  { A := ['a', 'b'],
    queried := [([], false), (['a'], true), (['b'], true), (['a', 'a'], true),
      (['a', 'b'], true)],
    oracleCalls := [[], ['a'], ['b'], ['a', 'a'], ['a', 'b']],
    S := [[], ['a']],
    SdotA := [['b'], ['a', 'a'], ['a', 'b']],
    E := [[]],
    S_rows := [([], [false]), (['a'], [true])],
    SdotA_rows := [(['b'], [true]), (['a', 'a'], [true]), (['a', 'b'], [true])],
    cur_ce_len := 2, max_ce_len := 3,
    dfa := none }

/-- The two-state candidate automaton extracted during the first
`find_counterexample` call. -/
def midDfa : DFA Char :=
  { A := ['a', 'b'], q0 := ['λ'], F := [['a']],
    Q := [['λ'], ['a']],
    d := [(['λ'], [('a', ['a']), ('b', ['a'])]),
          (['a'], [('a', ['a']), ('b', ['a'])])] }

/-- The table after the first `find_counterexample` call, which returned
the counterexample `aab` found at length 3. -/
def tblAfterFind : ObservationTable Char :=
  { A := ['a', 'b'],
    queried := [([], false), (['a'], true), (['b'], true), (['a', 'a'], true),
      (['a', 'b'], true)],
    oracleCalls := [[], ['a'], ['b'], ['a', 'a'], ['a', 'b'], ['a', 'a'],
      ['a', 'b'], ['b', 'a'], ['b', 'b'], ['a', 'a', 'a'], ['a', 'a', 'b']],
    S := [[], ['a']],
    SdotA := [['b'], ['a', 'a'], ['a', 'b']],
    E := [[]],
    S_rows := [([], [false]), (['a'], [true])],
    SdotA_rows := [(['b'], [true]), (['a', 'a'], [true]), (['a', 'b'], [true])],
    cur_ce_len := 3, max_ce_len := 3,
    dfa := some midDfa }

/-- The automaton the completed run proposes. -/
def finalDfa : DFA Char :=
  { A := ['a', 'b'], q0 := ['λ'],
    F := [['a'], ['a', 'a'], ['a', 'b']],
    Q := [['λ'], ['a'], ['a', 'a'], ['a', 'b'], ['a', 'a', 'b']],
    d := [(['λ'], [('a', ['a']), ('b', ['a', 'a'])]),
          (['a'], [('a', ['a', 'a']), ('b', ['a', 'b'])]),
          (['a', 'a'], [('b', ['a', 'a', 'b']), ('a', ['a', 'b'])]),
          (['a', 'b'], [('a', ['a', 'a', 'b']), ('b', ['a', 'a', 'b'])]),
          (['a', 'a', 'b'], [('a', ['a', 'a', 'b']), ('b', ['a', 'a', 'b'])])] }

/-- The table `lstar` returns for `runT` (the `Done` state). -/
def lstarFinalTable : ObservationTable Char :=
  { A := ['a', 'b'],
    queried := [([], false), (['a'], true), (['b'], true), (['a', 'a'], true),
      (['a', 'b'], true), (['a', 'a', 'b'], false), (['a', 'a', 'b', 'a'], false),
      (['a', 'a', 'b', 'b'], false), (['a', 'a', 'a'], true), (['b', 'a'], true),
      (['a', 'b', 'a'], false), (['a', 'a', 'b', 'a', 'a'], false),
      (['a', 'a', 'b', 'b', 'a'], false), (['a', 'a', 'a', 'a'], false),
      (['b', 'a', 'a'], false), (['a', 'b', 'a', 'a'], false),
      (['a', 'a', 'b', 'a', 'a', 'a'], false), (['a', 'a', 'b', 'b', 'a', 'a'], false),
      (['a', 'a', 'a', 'a', 'a'], false), (['a', 'b', 'a', 'a', 'a'], false),
      (['a', 'b', 'b'], false), (['a', 'b', 'b', 'a'], false),
      (['a', 'b', 'b', 'a', 'a'], false)],
    oracleCalls := [[], ['a'], ['b'], ['a', 'a'], ['a', 'b'], ['a', 'a'], ['a', 'b'],
      ['b', 'a'], ['b', 'b'], ['a', 'a', 'a'], ['a', 'a', 'b'], ['a', 'a', 'b'],
      ['a', 'a', 'b', 'a'], ['a', 'a', 'b', 'b'], ['a', 'a', 'a'], ['b', 'a'],
      ['a', 'b', 'a'], ['a', 'a', 'b', 'a', 'a'], ['a', 'a', 'b', 'b', 'a'],
      ['a', 'a', 'a', 'a'], ['b', 'a', 'a'], ['a', 'b', 'a', 'a'],
      ['a', 'a', 'b', 'a', 'a', 'a'], ['a', 'a', 'b', 'b', 'a', 'a'],
      ['a', 'a', 'a', 'a', 'a'], ['a', 'b', 'a', 'a', 'a'], ['a', 'b', 'b'],
      ['a', 'b', 'b', 'a'], ['a', 'b', 'b', 'a', 'a'], ['a', 'a', 'a'],
      ['a', 'a', 'b'], ['a', 'b', 'a'], ['a', 'b', 'b'], ['b', 'a', 'a'],
      ['b', 'a', 'b'], ['b', 'b', 'a'], ['b', 'b', 'b']],
    S := [[], ['a'], ['a', 'a', 'b'], ['a', 'a'], ['a', 'b']],
    SdotA := [['b'], ['a', 'a', 'b', 'a'], ['a', 'a', 'b', 'b'], ['a', 'a', 'a'],
      ['a', 'b', 'a'], ['a', 'b', 'b']],
    E := [[], ['a'], ['a', 'a']],
    S_rows := [([], [false, true, true]), (['a'], [true, true, true]),
      (['a', 'a', 'b'], [false, false, false]), (['a', 'a'], [true, true, false]),
      (['a', 'b'], [true, false, false])],
    SdotA_rows := [(['b'], [true, true, false]),
      (['a', 'a', 'b', 'a'], [false, false, false]),
      (['a', 'a', 'b', 'b'], [false, false, false]),
      (['a', 'a', 'a'], [true, false, false]),
      (['a', 'b', 'a'], [false, false, false]),
      (['a', 'b', 'b'], [false, false, false])],
    cur_ce_len := 4, max_ce_len := 3,
    dfa := some finalDfa }

/-! ## C4: the query cache and the direct teacher calls of the search -/

/-- C4 amended: `_query` answers a cached string from the cache with no
oracle call and no state change, and every table operation only appends
to `queried`, so the distinct-query count `get_num_of_queries` (the
length of `queried`) never decreases; `find_counterexample`, however,
calls the teacher directly and bypasses the cache entirely (it also never
records its calls in `queried`). -/
theorem c4_cache_amended :
    (∀ (T : List σ → Bool) (tbl : ObservationTable σ) (s : List σ) (b : Bool),
      alookup tbl.queried s = some b → query T tbl s = (b, tbl)) ∧
    (∀ (T : List σ → Bool) (tbl : ObservationTable σ),
      ∃ tl, (makeMoreConsistent T tbl).2.queried = tbl.queried ++ tl) ∧
    (∀ (T : List σ → Bool) (tbl : ObservationTable σ),
      ∃ tl, (makeMoreClosed T tbl).2.queried = tbl.queried ++ tl) ∧
    (∀ (T : List σ → Bool) (ce : List σ) (tbl : ObservationTable σ),
      ∃ tl, (resolveCounterexample T ce tbl).queried = tbl.queried ++ tl) ∧
    (∀ (T : List σ → Bool) (tbl : ObservationTable σ) (res : Option (List σ))
        (tbl2 : ObservationTable σ),
      findCounterexample T tbl = .ok (res, tbl2) → tbl2.queried = tbl.queried) :=
  ⟨query_cached, makeMoreConsistent_queried, makeMoreClosed_queried,
    resolveCounterexample_queried, findCounterexample_queried⟩

/-- Witness for the amended C4: in the concrete run, querying the cached
string `aa` returns the cached answer and leaves the table untouched. -/
theorem c4_cache_amended_witness :
    query runT tblRepaired ['a', 'a'] = (true, tblRepaired) :=
  c4_cache_amended.1 runT tblRepaired ['a', 'a'] true (by decide)

/-- C4 counterexample: in a reachable state of a learning run (the table
repaired from `__init__` under `runT`), the string `aa` is in the
`queried` cache, yet the following `find_counterexample` call invokes the
teacher on `aa` again — the cache is bypassed, so a cached string does
trigger another oracle call. -/
theorem c4_search_bypasses_cache :
    mkTable ['a', 'b'] runT none 20 = .ok tblInit ∧
    repairLoop runT 10 tblInit = some tblRepaired ∧
    alookup tblRepaired.queried ['a', 'a'] = some true ∧
    findCounterexample runT tblRepaired = .ok (some ['a', 'a', 'b'], tblAfterFind) ∧
    tblAfterFind.oracleCalls = tblRepaired.oracleCalls ++
      [['a', 'a'], ['a', 'b'], ['b', 'a'], ['b', 'b'], ['a', 'a', 'a'], ['a', 'a', 'b']] := by
  refine ⟨by decide, by decide, by decide, by decide, by decide⟩

/-! ## Properties of the counterexample search -/

theorem allWordsOfLength_length (A : List σ) :
    ∀ (n : Nat) (s : List σ), s ∈ allWordsOfLength A n → s.length = n := by
  intro n
  induction n with
  | zero => intro s hs; simp [allWordsOfLength] at hs; simp [hs]
  | succ n ih =>
      intro s hs
      simp only [allWordsOfLength, List.mem_flatMap, List.mem_map] at hs
      obtain ⟨a, _, w, hw, rfl⟩ := hs
      simp [ih w hw]

/-- What one scan of `find_counterexample` guarantees: the call log grows
by a subset of the scanned words, a returned counterexample is one of the
scanned words, and a `none` result means the automaton agreed with the
teacher on every scanned word. -/
theorem scanWords_spec (T : List σ → Bool) (M : DFA σ) :
    ∀ (ws log : List (List σ)) (res : Option (List σ)) (log2 : List (List σ)),
      scanWords T M ws log = .ok (res, log2) →
      (∃ tested, log2 = log ++ tested ∧ ∀ s ∈ tested, s ∈ ws) ∧
      (∀ t, res = some t → t ∈ ws) ∧
      (res = none → ∀ t ∈ ws, recognize M t = .ok (T t)) := by
  intro ws
  induction ws with
  | nil =>
      intro log res log2 h
      cases h
      exact ⟨⟨[], by simp⟩, by simp, by simp⟩
  | cons t rest ih =>
      intro log res log2 h
      simp only [scanWords] at h
      split at h
      · cases h
      · rename_i pred hrec
        split at h
        · rename_i hne
          cases h
          refine ⟨⟨[t], by simp⟩, by simp, by simp⟩
        · rename_i heq
          obtain ⟨⟨tested, hlog, hsub⟩, hres, hnone⟩ := ih (log ++ [t]) res log2 h
          refine ⟨⟨t :: tested, by simp [hlog], ?_⟩, ?_, ?_⟩
          · intro s hs
            rcases List.mem_cons.mp hs with rfl | hs
            · exact List.mem_cons_self s rest
            · exact List.mem_cons_of_mem t (hsub s hs)
          · intro u hu
            exact List.mem_cons_of_mem t (hres u hu)
          · intro hn u hu
            rcases List.mem_cons.mp hu with rfl | hu
            · have hpt : pred = T u := by
                by_contra hc
                exact hc (by simpa using heq)
              rw [hrec, hpt]
            · exact hnone hn u hu

/-- What the length loop of `find_counterexample` guarantees. -/
theorem fceLoop_spec (T : List σ → Bool) (M : DFA σ) (A : List σ) :
    ∀ (fuel cur : Nat) (log : List (List σ)) (res : Option (List σ))
        (cur2 : Nat) (log2 : List (List σ)),
      fceLoop T M A fuel cur log = .ok (res, cur2, log2) →
      (cur ≤ cur2 ∧ cur2 ≤ cur + fuel) ∧
      (∃ tested, log2 = log ++ tested ∧
        ∀ s ∈ tested, ∃ L, cur ≤ L ∧ s ∈ allWordsOfLength A L) ∧
      (∀ ce, res = some ce → ce ∈ allWordsOfLength A cur2 ∧ cur2 < cur + fuel) ∧
      (res = none → cur2 = cur + fuel ∧
        ∀ L, cur ≤ L → L < cur + fuel →
          ∀ t ∈ allWordsOfLength A L, recognize M t = .ok (T t)) := by
  intro fuel
  induction fuel with
  | zero =>
      intro cur log res cur2 log2 h
      cases h
      exact ⟨⟨le_refl _, by omega⟩, ⟨[], by simp⟩, by simp, fun _ => ⟨by omega, by omega⟩⟩
  | succ fuel ih =>
      intro cur log res cur2 log2 h
      simp only [fceLoop] at h
      split at h
      · cases h
      · rename_i t l1 hscan
        cases h
        obtain ⟨⟨tested, hlog, hsub⟩, hres, hnone⟩ :=
          scanWords_spec T M (allWordsOfLength A cur) log (some t) log2 hscan
        refine ⟨⟨le_refl _, by omega⟩, ⟨tested, hlog, ?_⟩, ?_, by simp⟩
        · intro s hs
          exact ⟨cur, le_refl _, hsub s hs⟩
        · intro ce hce
          cases hce
          exact ⟨hres t rfl, by omega⟩
      · rename_i l1 hscan
        obtain ⟨⟨tested, hlog, hsub⟩, hres, hnone⟩ :=
          scanWords_spec T M (allWordsOfLength A cur) log none l1 hscan
        obtain ⟨⟨hc1, hc2⟩, ⟨tested2, hlog2, hsub2⟩, hres2, hnone2⟩ :=
          ih (cur + 1) l1 res cur2 log2 h
        refine ⟨⟨by omega, by omega⟩, ⟨tested ++ tested2, ?_, ?_⟩, ?_, ?_⟩
        · rw [hlog2, hlog, List.append_assoc]
        · intro s hs
          rcases List.mem_append.mp hs with hs | hs
          · exact ⟨cur, le_refl _, hsub s hs⟩
          · obtain ⟨L, hL, hsL⟩ := hsub2 s hs
            exact ⟨L, by omega, hsL⟩
        · intro ce hce
          obtain ⟨h1, h2⟩ := hres2 ce hce
          exact ⟨h1, by omega⟩
        · intro hn
          obtain ⟨h1, h2⟩ := hnone2 hn
          refine ⟨by omega, ?_⟩
          intro L hL1 hL2 t ht
          rcases Nat.eq_or_lt_of_le hL1 with hL | hL
          · subst hL
            exact hnone rfl t ht
          · exact h2 L (by omega) (by omega) t ht

/-- `find_counterexample` at the table level: the result and the updated
search position. -/
theorem findCounterexample_spec (T : List σ → Bool) (tbl : ObservationTable σ)
    (res : Option (List σ)) (tbl2 : ObservationTable σ)
    (h : findCounterexample T tbl = .ok (res, tbl2)) :
    tbl2.A = tbl.A ∧ tbl2.max_ce_len = tbl.max_ce_len ∧
    tbl.cur_ce_len ≤ tbl2.cur_ce_len ∧
    (∃ M, toDfa tbl = .ok M ∧ tbl2.dfa = some M) ∧
    (∀ s ∈ tbl2.oracleCalls, s ∈ tbl.oracleCalls ∨ tbl.cur_ce_len ≤ s.length) ∧
    (∀ ce, res = some ce →
      tbl2.cur_ce_len = ce.length ∧ ce.length ≤ tbl.max_ce_len) ∧
    (res = none →
      ∃ M, toDfa tbl = .ok M ∧
        ∀ L, tbl.cur_ce_len ≤ L → L ≤ tbl.max_ce_len →
          ∀ t ∈ allWordsOfLength tbl.A L, recognize M t = .ok (T t)) := by
  unfold findCounterexample at h
  split at h
  · cases h
  · rename_i M hM
    dsimp only at h
    split at h
    · cases h
    · rename_i r1 cur2 log hloop
      cases h
      obtain ⟨⟨hc1, hc2⟩, ⟨tested, hlog, hsub⟩, hsome, hnone⟩ :=
        fceLoop_spec T M tbl.A (tbl.max_ce_len + 1 - tbl.cur_ce_len)
          tbl.cur_ce_len [] res cur2 log hloop
      simp only [List.nil_append] at hlog
      subst hlog
      refine ⟨rfl, rfl, hc1, ⟨M, hM, rfl⟩, ?_, ?_, ?_⟩
      · intro s hs
        rcases List.mem_append.mp hs with hs | hs
        · exact Or.inl hs
        · obtain ⟨L, hL, hsL⟩ := hsub s hs
          have := allWordsOfLength_length tbl.A L s hsL
          exact Or.inr (by omega)
      · intro ce hce
        obtain ⟨hc3, hc4⟩ := hsome ce hce
        have := allWordsOfLength_length tbl.A cur2 ce hc3
        exact ⟨this.symm, by omega⟩
      · intro hn
        obtain ⟨hc3, hc4⟩ := hnone hn
        exact ⟨M, hM, fun L h1 h2 t ht => hc4 L h1 (by omega) t ht⟩

/-- Every `Done` result of the driver loop is the table returned by a
final `find_counterexample` call that found nothing. -/
theorem lstarLoop_done (T : List σ → Bool) :
    ∀ (fuel : Nat) (tbl tblF : ObservationTable σ),
      lstarLoop T fuel tbl = .ok (some tblF) →
      ∃ tpre, findCounterexample T tpre = .ok (none, tblF) := by
  intro fuel
  induction fuel with
  | zero => intro tbl tblF h; cases h
  | succ fuel ih =>
      intro tbl tblF h
      simp only [lstarLoop] at h
      split at h
      · cases h
      · rename_i tbl1 hrep
        split at h
        · cases h
        · rename_i tbl2 hfind
          cases h
          exact ⟨tbl1, hfind⟩
        · rename_i ce tbl2 hfind
          exact ih _ tblF h

/-! ## C10: the search position persists across calls -/

/-- C10: the search position `cur_ce_len` is set to 2 at construction and
never reset: the repair operations and counterexample resolution leave it
unchanged; `find_counterexample` only moves it forward, every teacher
call it makes is on a string of length at least the position at entry
(so lengths `2..n-1` are never retested once the position reached `n`),
and when it returns a counterexample the position equals that
counterexample's length. -/
theorem c10_search_position_persists :
    (∀ (A : List σ) (T : List σ → Bool) (cap : Option Nat) (m : Nat)
        (tbl : ObservationTable σ),
      mkTable A T cap m = .ok tbl → tbl.cur_ce_len = 2) ∧
    (∀ (T : List σ → Bool) (tbl : ObservationTable σ),
      (makeMoreConsistent T tbl).2.cur_ce_len = tbl.cur_ce_len) ∧
    (∀ (T : List σ → Bool) (tbl : ObservationTable σ),
      (makeMoreClosed T tbl).2.cur_ce_len = tbl.cur_ce_len) ∧
    (∀ (T : List σ → Bool) (ce : List σ) (tbl : ObservationTable σ),
      (resolveCounterexample T ce tbl).cur_ce_len = tbl.cur_ce_len) ∧
    (∀ (T : List σ → Bool) (tbl : ObservationTable σ) (res : Option (List σ))
        (tbl2 : ObservationTable σ),
      findCounterexample T tbl = .ok (res, tbl2) →
      tbl.cur_ce_len ≤ tbl2.cur_ce_len ∧
      (∀ s ∈ tbl2.oracleCalls, s ∈ tbl.oracleCalls ∨ tbl.cur_ce_len ≤ s.length) ∧
      (∀ ce, res = some ce → tbl2.cur_ce_len = ce.length)) := by
  refine ⟨mkTable_cur, makeMoreConsistent_cur, makeMoreClosed_cur,
    resolveCounterexample_cur, ?_⟩
  intro T tbl res tbl2 h
  obtain ⟨_, _, h3, _, h5, h6, _⟩ := findCounterexample_spec T tbl res tbl2 h
  exact ⟨h3, h5, fun ce hce => (h6 ce hce).1⟩

/-- Witness for C10 on the concrete run: the first search starts at
position 2, finds the counterexample `aab` of length 3, and leaves the
position at 3; the construction and repair facts are evaluated
directly. -/
theorem c10_search_position_persists_witness :
    tblInit.cur_ce_len = 2 ∧
    tblRepaired.cur_ce_len ≤ tblAfterFind.cur_ce_len ∧
    tblAfterFind.cur_ce_len = (['a', 'a', 'b'] : List Char).length :=
  ⟨c10_search_position_persists.1 ['a', 'b'] runT none 20 tblInit (by decide),
   (c10_search_position_persists.2.2.2.2 runT tblRepaired (some ['a', 'a', 'b'])
      tblAfterFind (by decide)).1,
   (c10_search_position_persists.2.2.2.2 runT tblRepaired (some ['a', 'a', 'b'])
      tblAfterFind (by decide)).2.2 ['a', 'a', 'b'] rfl⟩

/-- Witness for C9 on the concrete run: the freshly built table has
`E = [""]`, and the search call leaves `E` unchanged. -/
theorem c9_E_append_only_witness :
    tblInit.E = [[]] ∧ tblAfterFind.E = tblRepaired.E :=
  ⟨c9_E_append_only.1 ['a', 'b'] runT none 20 tblInit (by decide),
   c9_E_append_only.2.2.2.2.1 runT tblRepaired (some ['a', 'a', 'b'])
     tblAfterFind (by decide)⟩

/-! ## C1: the round-trip guarantee after `Done`

Because the search position persists across calls (C10), the final
`find_counterexample` call only verifies lengths from its entry position
up to `max_ce_len`; shorter strings were last checked against an *older*
candidate, and the final candidate may disagree with the oracle on them.
The concrete run below exhibits this: the final automaton misclassifies
`bb` (length 2 ≤ `max_ce_len` = 3) although the driver reached `Done`. -/

/-- C1 counterexample: the completed run for `runT` (length-1-or-2 strings
plus `aaa`, `max_ce_searches = 20`, hence `max_ce_len = 3`) returns a
candidate that rejects `bb` while the oracle accepts it, with
`|bb| = 2 ≤ max_ce_len` — the round-trip property fails. -/
theorem c1_round_trip_refuted :
    lstar ['a', 'b'] runT none 20 50 = .ok (some lstarFinalTable) ∧
    lstarFinalTable.dfa = some finalDfa ∧
    (['b', 'b'] : List Char).length ≤ lstarFinalTable.max_ce_len ∧
    recognize finalDfa ['b', 'b'] = .ok false ∧
    runT ['b', 'b'] = true := by
  refine ⟨by decide, rfl, by decide, by decide, by decide⟩

/-- C1 amended: after the driver reaches `Done`, the returned candidate
agrees with the oracle on every string whose length lies between the
search position at the start of the final (empty-handed)
`find_counterexample` call and `max_ce_len`.  Strings of length 2 up to
that position are not re-verified against the final candidate and may
disagree. -/
theorem c1_round_trip_amended (A : List σ) (T : List σ → Bool)
    (cap : Option Nat) (m fuel : Nat) (tblF : ObservationTable σ)
    (h : lstar A T cap m fuel = .ok (some tblF)) :
    ∃ tpre M, findCounterexample T tpre = .ok (none, tblF) ∧
      tblF.dfa = some M ∧ tblF.A = tpre.A ∧
      tblF.max_ce_len = tpre.max_ce_len ∧
      ∀ L, tpre.cur_ce_len ≤ L → L ≤ tpre.max_ce_len →
        ∀ t ∈ allWordsOfLength tpre.A L, recognize M t = .ok (T t) := by
  unfold lstar at h
  split at h
  · cases h
  · rename_i tbl0 hmk
    obtain ⟨tpre, hfind⟩ := lstarLoop_done T fuel tbl0 tblF h
    obtain ⟨hA, hmax, _, ⟨M, hM, hdfa⟩, _, _, hagree⟩ :=
      findCounterexample_spec T tpre none tblF hfind
    obtain ⟨M2, hM2, hag⟩ := hagree rfl
    rw [hM] at hM2
    cases hM2
    exact ⟨tpre, M, hfind, hdfa, hA, hmax, hag⟩

/-- The even-length oracle: the scenario used to witness the amended C1
(its run terminates with no counterexample at all). -/
def evenT : List Char → Bool := fun s => decide (s.length % 2 = 0)

/-- The candidate automaton of the completed even-length run. -/
def evenDfa : DFA Char :=
  { A := ['a', 'b'], q0 := ['λ'], F := [['λ']], Q := [['λ'], ['a']],
    d := [(['λ'], [('a', ['a']), ('b', ['a'])]),
          (['a'], [('a', ['λ']), ('b', ['λ'])])] }

/-- The table `lstar` returns for the even-length oracle. -/
def evenFinalTable : ObservationTable Char :=
  { A := ['a', 'b'],
    queried := [([], true), (['a'], false), (['b'], false), (['a', 'a'], true),
      (['a', 'b'], true)],
    oracleCalls := [[], ['a'], ['b'], ['a', 'a'], ['a', 'b'], ['a', 'a'],
      ['a', 'b'], ['b', 'a'], ['b', 'b'], ['a', 'a', 'a'], ['a', 'a', 'b'],
      ['a', 'b', 'a'], ['a', 'b', 'b'], ['b', 'a', 'a'], ['b', 'a', 'b'],
      ['b', 'b', 'a'], ['b', 'b', 'b']],
    S := [[], ['a']],
    SdotA := [['b'], ['a', 'a'], ['a', 'b']],
    E := [[]],
    S_rows := [([], [true]), (['a'], [false])],
    SdotA_rows := [(['b'], [false]), (['a', 'a'], [true]), (['a', 'b'], [true])],
    cur_ce_len := 4, max_ce_len := 3,
    dfa := some evenDfa }

/-- Witness for the amended C1 on the even-length run. -/
theorem c1_round_trip_amended_witness :
    ∃ tpre M, findCounterexample evenT tpre = .ok (none, evenFinalTable) ∧
      evenFinalTable.dfa = some M ∧ evenFinalTable.A = tpre.A ∧
      evenFinalTable.max_ce_len = tpre.max_ce_len ∧
      ∀ L, tpre.cur_ce_len ≤ L → L ≤ tpre.max_ce_len →
        ∀ t ∈ allWordsOfLength tpre.A L, recognize M t = .ok (evenT t) :=
  c1_round_trip_amended ['a', 'b'] evenT none 20 10 evenFinalTable (by decide)

/-! ## Association-list lemmas for the extraction proofs -/

theorem alookup_append_of_some {l1 l2 : List (κ × ν)} {k : κ} {v : ν}
    (h : alookup l1 k = some v) : alookup (l1 ++ l2) k = some v := by
  induction l1 with
  | nil => cases h
  | cons p rest ih =>
      obtain ⟨k2, v2⟩ := p
      simp only [alookup, List.cons_append] at *
      split at h
      · simpa [*] using h
      · simp only [*, if_false]
        exact ih h

theorem alookup_append_of_none {l1 l2 : List (κ × ν)} {k : κ}
    (h : alookup l1 k = none) : alookup (l1 ++ l2) k = alookup l2 k := by
  induction l1 with
  | nil => rfl
  | cons p rest ih =>
      obtain ⟨k2, v2⟩ := p
      simp only [alookup, List.cons_append] at *
      split at h
      · cases h
      · simp only [*, if_false]
        exact ih h

theorem alookup_mem {l : List (κ × ν)} {k : κ} {v : ν}
    (h : alookup l k = some v) : (k, v) ∈ l := by
  induction l with
  | nil => cases h
  | cons p rest ih =>
      obtain ⟨k2, v2⟩ := p
      simp only [alookup] at h
      split at h
      · rename_i he
        cases h
        simp [he]
      · exact List.mem_cons_of_mem _ (ih h)

theorem alookup_of_mem_nodup {l : List (κ × ν)} {k : κ} {v : ν}
    (hn : (l.map Prod.fst).Nodup) (h : (k, v) ∈ l) : alookup l k = some v := by
  induction l with
  | nil => cases h
  | cons p rest ih =>
      obtain ⟨k2, v2⟩ := p
      simp only [List.map_cons, List.nodup_cons] at hn
      rcases List.mem_cons.mp h with he | he
      · cases he
        simp [alookup]
      · have hk : k ≠ k2 := by
          intro hc
          subst hc
          exact hn.1 (List.mem_map.mpr ⟨(k, v), he, rfl⟩)
        simp only [alookup, hk, if_false]
        exact ih hn.2 he

theorem alookup_none_iff {l : List (κ × ν)} {k : κ} :
    alookup l k = none ↔ k ∉ l.map Prod.fst := by
  induction l with
  | nil => simp [alookup]
  | cons p rest ih =>
      obtain ⟨k2, v2⟩ := p
      simp only [alookup, List.map_cons, List.mem_cons]
      split
      · rename_i he
        simp [he]
      · rename_i he
        simp [he, ih]

theorem alookup_isSome_of_mem_keys {l : List (κ × ν)} {k : κ}
    (h : k ∈ l.map Prod.fst) : (alookup l k).isSome := by
  cases hl : alookup l k with
  | none => exact absurd (alookup_none_iff.mp hl) (by simp [h])
  | some v => rfl

theorem alookup_append_case {l : List (κ × ν)} {k k2 : κ} {v : ν} {q : ν}
    (h : alookup (l ++ [(k, v)]) k2 = some q) :
    alookup l k2 = some q ∨ (alookup l k2 = none ∧ k2 = k ∧ q = v) := by
  cases hl : alookup l k2 with
  | some v2 =>
      rw [alookup_append_of_some hl] at h
      exact Or.inl h
  | none =>
      rw [alookup_append_of_none hl] at h
      simp only [alookup] at h
      split at h
      · rename_i he
        have hq : q = v := by injection h with h2; exact h2.symm
        exact Or.inr ⟨rfl, he, hq⟩
      · cases h

theorem aupdate_alookup (l : List (κ × ν)) (k k2 : κ) (v : ν) :
    alookup (aupdate l k v) k2 = if k2 = k then some v else alookup l k2 := by
  induction l with
  | nil => rfl
  | cons p rest ih =>
      obtain ⟨k3, v3⟩ := p
      simp only [aupdate]
      split
      · rename_i he
        subst he
        by_cases h2 : k2 = k3 <;> simp [alookup, h2]
      · rename_i he
        by_cases h2 : k2 = k3
        · subst h2
          simp [alookup, he]
        · simp [alookup, h2, ih]

theorem aupdate_keys_of_mem {l : List (κ × ν)} {k : κ} (v : ν)
    (h : k ∈ l.map Prod.fst) :
    (aupdate l k v).map Prod.fst = l.map Prod.fst := by
  induction l with
  | nil => cases h
  | cons p rest ih =>
      obtain ⟨k3, v3⟩ := p
      simp only [aupdate]
      split
      · rename_i he; simp [he]
      · rename_i he
        simp only [List.map_cons, List.mem_cons] at h
        rcases h with h | h
        · exact absurd h.symm he
        · simp [ih h]

theorem aupdate_fresh {l : List (κ × ν)} {k : κ} (v : ν)
    (h : k ∉ l.map Prod.fst) : aupdate l k v = l ++ [(k, v)] := by
  induction l with
  | nil => rfl
  | cons p rest ih =>
      obtain ⟨k3, v3⟩ := p
      simp only [List.map_cons, List.mem_cons] at h
      push_neg at h
      simp only [aupdate, Ne.symm h.1, if_false, List.cons_append]
      rw [ih h.2]

theorem aupdate_mem_cases {l : List (κ × ν)} {k : κ} {v : ν} {p : κ × ν}
    (h : p ∈ aupdate l k v) : p ∈ l ∨ p = (k, v) := by
  induction l with
  | nil => simpa [aupdate] using h
  | cons p0 rest ih =>
      obtain ⟨k3, v3⟩ := p0
      simp only [aupdate] at h
      split at h
      · rcases List.mem_cons.mp h with h | h
        · exact Or.inr h
        · exact Or.inl (List.mem_cons_of_mem _ h)
      · rcases List.mem_cons.mp h with h | h
        · exact Or.inl (by simp [h])
        · rcases ih h with h | h
          · exact Or.inl (List.mem_cons_of_mem _ h)
          · exact Or.inr h

theorem addElem_mem_iff {l : List κ} {x y : κ} :
    x ∈ addElem l y ↔ x ∈ l ∨ x = y := by
  unfold addElem
  split
  · rename_i hy
    constructor
    · exact Or.inl
    · intro h
      rcases h with h | h
      · exact h
      · simpa [h] using hy
  · simp

/-! ## The stable length sort -/

theorem insertByLen_perm (keyLen : α → Nat) (x : α) :
    ∀ l : List α, (insertByLen keyLen x l).Perm (x :: l) := by
  intro l
  induction l with
  | nil => simp [insertByLen]
  | cons y ys ih =>
      simp only [insertByLen]
      split
      · exact (ih.cons y).trans (List.Perm.swap x y ys)
      · exact List.Perm.refl _

theorem stableSortLen_perm (keyLen : α → Nat) (l : List α) :
    (stableSortLen keyLen l).Perm l := by
  suffices h : ∀ (l acc : List α),
      (l.foldl (fun acc x => insertByLen keyLen x acc) acc).Perm (acc ++ l) by
    simpa using h l []
  intro l
  induction l with
  | nil => intro acc; simp
  | cons x xs ih =>
      intro acc
      simp only [List.foldl]
      refine (ih (insertByLen keyLen x acc)).trans ?_
      have h1 : (insertByLen keyLen x acc ++ xs).Perm ((x :: acc) ++ xs) :=
        (insertByLen_perm keyLen x acc).append_right xs
      refine h1.trans ?_
      simp only [List.cons_append]
      exact (List.perm_middle).symm

theorem insertByLen_sorted (keyLen : α → Nat) (x : α) :
    ∀ l : List α, l.Pairwise (fun a b => keyLen a ≤ keyLen b) →
      (insertByLen keyLen x l).Pairwise (fun a b => keyLen a ≤ keyLen b) := by
  intro l
  induction l with
  | nil => intro _; simp [insertByLen]
  | cons y ys ih =>
      intro hs
      simp only [insertByLen]
      rw [List.pairwise_cons] at hs
      split
      · rename_i hle
        rw [List.pairwise_cons]
        refine ⟨?_, ih hs.2⟩
        intro b hb
        rcases List.mem_cons.mp ((insertByLen_perm keyLen x ys).mem_iff.mp hb) with rfl | h
        · exact hle
        · exact hs.1 b h
      · rename_i hle
        push_neg at hle
        rw [List.pairwise_cons]
        refine ⟨?_, List.pairwise_cons.mpr hs⟩
        intro b hb
        rcases List.mem_cons.mp hb with h | h
        · subst h
          omega
        · exact le_trans (by omega) (hs.1 b h)

theorem stableSortLen_sorted (keyLen : α → Nat) (l : List α) :
    (stableSortLen keyLen l).Pairwise (fun a b => keyLen a ≤ keyLen b) := by
  suffices h : ∀ (l acc : List α),
      acc.Pairwise (fun a b => keyLen a ≤ keyLen b) →
      (l.foldl (fun acc x => insertByLen keyLen x acc) acc).Pairwise
        (fun a b => keyLen a ≤ keyLen b) by
    exact h l [] (by simp)
  intro l
  induction l with
  | nil => intro acc h; simpa using h
  | cons x xs ih =>
      intro acc h
      exact ih _ (insertByLen_sorted keyLen x acc h)

/-- The sorted list starts with its unique minimal element when that
element has key length 0 and the list has no duplicates. -/
theorem stableSortLen_head {keyLen : α → Nat} {l : List α} {x0 : α}
    (hx : x0 ∈ l) (h0 : keyLen x0 = 0) (hnd : l.Nodup)
    (huniq : ∀ y ∈ l, keyLen y = 0 → y = x0) :
    ∃ rest, stableSortLen keyLen l = x0 :: rest := by
  have hperm := stableSortLen_perm keyLen l
  have hs := stableSortLen_sorted keyLen l
  have hx2 : x0 ∈ stableSortLen keyLen l := hperm.mem_iff.mpr hx
  cases hl : stableSortLen keyLen l with
  | nil => rw [hl] at hx2; cases hx2
  | cons h t =>
      rw [hl] at hx2 hs
      rw [List.pairwise_cons] at hs
      rcases List.mem_cons.mp hx2 with he | he
      · exact ⟨t, by rw [he]⟩
      · have : keyLen h ≤ 0 := h0 ▸ hs.1 x0 he
        have hh0 : keyLen h = 0 := by omega
        have := huniq h (hperm.mem_iff.mp (by simp [hl])) hh0
        exact ⟨t, by rw [this]⟩

/-! ## The merged table under well-formedness -/

theorem foldl_aupdate_append :
    ∀ (l2 l1 : List (κ × ν)),
      (∀ p ∈ l2, p.1 ∉ l1.map Prod.fst) → (l2.map Prod.fst).Nodup →
      l2.foldl (fun t p => aupdate t p.1 p.2) l1 = l1 ++ l2 := by
  intro l2
  induction l2 with
  | nil => intro l1 _ _; simp
  | cons p l2 ih =>
      intro l1 hfresh hnd
      simp only [List.foldl]
      rw [aupdate_fresh p.2 (hfresh p (List.mem_cons_self p l2))]
      simp only [List.map_cons, List.nodup_cons] at hnd
      rw [ih (l1 ++ [p]) ?_ hnd.2]
      · simp
      · intro q hq
        simp only [List.map_append, List.mem_append]
        push_neg
        refine ⟨hfresh q (List.mem_cons_of_mem p hq), ?_⟩
        simp only [List.map_cons, List.map_nil, List.mem_singleton]
        intro hc
        exact hnd.1 (hc ▸ List.mem_map.mpr ⟨q, hq, rfl⟩)

theorem combined_eq {T : List σ → Bool} {tbl : ObservationTable σ}
    (hwf : WellFormed T tbl) :
    combinedTable tbl = tbl.S_rows ++ tbl.SdotA_rows := by
  obtain ⟨hSk, hSAk, hSnd, hSAnd, hdisj, _, _, _, _, _, _, _, _⟩ := hwf
  refine foldl_aupdate_append tbl.SdotA_rows tbl.S_rows ?_ (by rw [hSAk]; exact hSAnd)
  intro p hp
  rw [hSk]
  intro hc
  exact hdisj p.1 hc (hSAk ▸ List.mem_map.mpr ⟨p, hp, rfl⟩)

theorem combined_keys {T : List σ → Bool} {tbl : ObservationTable σ}
    (hwf : WellFormed T tbl) :
    (combinedTable tbl).map Prod.fst = tbl.S ++ tbl.SdotA := by
  rw [combined_eq hwf, List.map_append, hwf.1, hwf.2.1]

theorem combined_keys_nodup {T : List σ → Bool} {tbl : ObservationTable σ}
    (hwf : WellFormed T tbl) :
    ((combinedTable tbl).map Prod.fst).Nodup := by
  rw [combined_keys hwf]
  obtain ⟨_, _, hSnd, hSAnd, hdisj, _⟩ := hwf
  exact List.Nodup.append hSnd hSAnd (fun a ha hb => hdisj a ha hb)

theorem combined_vals {T : List σ → Bool} {tbl : ObservationTable σ}
    (hwf : WellFormed T tbl) :
    ∀ p ∈ combinedTable tbl, p.2 = rowFn T tbl.E p.1 := by
  intro p hp
  rw [combined_eq hwf] at hp
  rcases List.mem_append.mp hp with hp | hp
  · exact hwf.2.2.2.2.2.2.2.2.2.2.1 p hp
  · exact hwf.2.2.2.2.2.2.2.2.2.2.2.1 p hp

theorem mem_rows_of_mem_keys {rows : List (List σ × List Bool)} {s : List σ}
    (hkeys : rows.map Prod.fst = l) (hval : ∀ p ∈ rows, p.2 = rowFn T E p.1)
    (hs : s ∈ l) : (s, rowFn T E s) ∈ rows := by
  rw [← hkeys] at hs
  obtain ⟨p, hp, hps⟩ := List.mem_map.mp hs
  have := hval p hp
  have hpe : p = (s, rowFn T E s) := by
    obtain ⟨p1, p2⟩ := p
    simp only at hps this
    simp [hps ▸ this, hps]
  exact hpe ▸ hp

theorem combined_lookup_S {T : List σ → Bool} {tbl : ObservationTable σ}
    (hwf : WellFormed T tbl) {s : List σ} (hs : s ∈ tbl.S) :
    alookup (combinedTable tbl) s = some (rowFn T tbl.E s) := by
  refine alookup_of_mem_nodup (combined_keys_nodup hwf) ?_
  rw [combined_eq hwf]
  exact List.mem_append_left _
    (mem_rows_of_mem_keys hwf.1 hwf.2.2.2.2.2.2.2.2.2.2.1 hs)

theorem combined_lookup_SdotA {T : List σ → Bool} {tbl : ObservationTable σ}
    (hwf : WellFormed T tbl) {s : List σ} (hs : s ∈ tbl.SdotA) :
    alookup (combinedTable tbl) s = some (rowFn T tbl.E s) := by
  refine alookup_of_mem_nodup (combined_keys_nodup hwf) ?_
  rw [combined_eq hwf]
  exact List.mem_append_right _
    (mem_rows_of_mem_keys hwf.2.1 hwf.2.2.2.2.2.2.2.2.2.2.2.1 hs)

theorem storedRow_eq {T : List σ → Bool} {tbl : ObservationTable σ}
    (hwf : WellFormed T tbl) {s : List σ} (hs : s ∈ tbl.S) :
    storedRow tbl s = rowFn T tbl.E s := by
  have h1 : alookup tbl.S_rows s = some (rowFn T tbl.E s) := by
    refine alookup_of_mem_nodup ?_ ?_
    · rw [hwf.1]; exact hwf.2.2.1
    · exact mem_rows_of_mem_keys hwf.1 hwf.2.2.2.2.2.2.2.2.2.2.1 hs
  simp [storedRow, h1]

/-! ## The row-to-state map under well-formedness

The invariant of the fold of `_make_row_to_state_map`: the empty prefix's
row is named `λ`; processed prefixes have their rows in the map; every
entry names a row of an `S` member; keys are unique, values are unique,
and each named representative has minimal length in its row class. -/

/-- Invariant of the row-to-state fold. -/
structure RmapInv (T : List σ → Bool) (tbl : ObservationTable σ)
    (m : List (List Bool × DState σ)) (done : List (List σ)) : Prop where
  base : alookup m (rowFn T tbl.E []) = some (lamLabel σ)
  covers : ∀ s ∈ done, (alookup m (rowFn T tbl.E s)).isSome
  sound : ∀ r q, alookup m r = some q →
    (q = lamLabel σ ∧ r = rowFn T tbl.E []) ∨
    (q ∈ tbl.S ∧ r = rowFn T tbl.E q ∧ r ≠ rowFn T tbl.E [])
  keysnd : (m.map Prod.fst).Nodup
  valsdone : ∀ r q, alookup m r = some q → r ≠ rowFn T tbl.E [] → q ∈ done
  minlen : ∀ r q, alookup m r = some q → r ≠ rowFn T tbl.E [] →
    ∀ u ∈ tbl.S, rowFn T tbl.E u = r → q.length ≤ u.length

theorem rmapFold_inv {T : List σ → Bool} {tbl : ObservationTable σ}
    (hwf : WellFormed T tbl) :
    ∀ (ps done : List (List σ)) (m : List (List Bool × DState σ)),
      (∀ u ∈ tbl.S, u = [] ∨ u ∈ done ∨ u ∈ ps) →
      (∀ s ∈ ps, s ∈ tbl.S) →
      ps.Pairwise (fun x y => x.length ≤ y.length) →
      ([] :: (done ++ ps)).Nodup →
      RmapInv T tbl m done →
      RmapInv T tbl (rmapFold tbl ps m) (done ++ ps) := by
  intro ps
  induction ps with
  | nil =>
      intro done m _ _ _ _ hinv
      simpa [rmapFold] using hinv
  | cons s rest ih =>
      intro done m hperm hpsS hsort hnd hinv
      have hsS : s ∈ tbl.S := hpsS s (List.mem_cons_self s rest)
      have hrow : storedRow tbl s = rowFn T tbl.E s := storedRow_eq hwf hsS
      have hstep : done ++ s :: rest = (done ++ [s]) ++ rest := by simp
      simp only [rmapFold, hrow]
      split
      · rename_i hsome
        rw [hstep]
        refine ih (done ++ [s]) m ?_ ?_ (List.Pairwise.of_cons hsort) ?_ ?_
        · intro u hu
          rcases hperm u hu with h | h | h
          · exact Or.inl h
          · exact Or.inr (Or.inl (List.mem_append_left _ h))
          · rcases List.mem_cons.mp h with rfl | h
            · exact Or.inr (Or.inl (List.mem_append_right _ (by simp)))
            · exact Or.inr (Or.inr h)
        · intro u hu; exact hpsS u (List.mem_cons_of_mem s hu)
        · rw [← hstep]; exact hnd
        · refine ⟨hinv.base, ?_, hinv.sound, hinv.keysnd, ?_, hinv.minlen⟩
          · intro u hu
            rcases List.mem_append.mp hu with h | h
            · exact hinv.covers u h
            · rw [List.mem_singleton.mp h]
              exact hsome
          · intro r q hr hne
            exact List.mem_append_left _ (hinv.valsdone r q hr hne)
      · rename_i hnone
        rw [Option.not_isSome_iff_eq_none] at hnone
        rw [hstep]
        have hnotin : ∀ u, u ∈ done ∨ u = [] → rowFn T tbl.E u ≠ rowFn T tbl.E s := by
          intro u hu hc
          rcases hu with hu | rfl
          · have := hinv.covers u hu
            rw [hc, hnone] at this
            cases this
          · have := hinv.base
            rw [hc, hnone] at this
            cases this
        have hrne : rowFn T tbl.E s ≠ rowFn T tbl.E [] := by
          intro hc
          have := hinv.base
          rw [← hc, hnone] at this
          cases this
        refine ih (done ++ [s]) _ ?_ ?_ (List.Pairwise.of_cons hsort) ?_ ?_
        · intro u hu
          rcases hperm u hu with h | h | h
          · exact Or.inl h
          · exact Or.inr (Or.inl (List.mem_append_left _ h))
          · rcases List.mem_cons.mp h with rfl | h
            · exact Or.inr (Or.inl (List.mem_append_right _ (by simp)))
            · exact Or.inr (Or.inr h)
        · intro u hu; exact hpsS u (List.mem_cons_of_mem s hu)
        · rw [← hstep]; exact hnd
        · refine ⟨?_, ?_, ?_, ?_, ?_, ?_⟩
          · exact alookup_append_of_some hinv.base
          · intro u hu
            rcases List.mem_append.mp hu with h | h
            · obtain ⟨v, hv⟩ := Option.isSome_iff_exists.mp (hinv.covers u h)
              rw [alookup_append_of_some hv]
              rfl
            · rw [List.mem_singleton.mp h]
              rw [alookup_append_of_none hnone]
              simp [alookup]
          · intro r q hr
            rcases alookup_append_case hr with h | ⟨_, rfl, rfl⟩
            · exact hinv.sound r q h
            · exact Or.inr ⟨hsS, rfl, hrne⟩
          · simp only [List.map_append, List.map_cons, List.map_nil]
            rw [List.nodup_append]
            refine ⟨hinv.keysnd, List.nodup_singleton _, ?_⟩
            intro r hr hmem
            simp only [List.mem_singleton] at hmem
            subst hmem
            have hsome := alookup_isSome_of_mem_keys hr
            rw [hnone] at hsome
            simp at hsome
          · intro r q hr hne2
            rcases alookup_append_case hr with h | ⟨_, rfl, rfl⟩
            · exact List.mem_append_left _ (hinv.valsdone r q h hne2)
            · exact List.mem_append_right _ (by simp)
          · intro r q hr hne2 u hu hru
            rcases alookup_append_case hr with h | ⟨_, rfl, rfl⟩
            · exact hinv.minlen r q h hne2 u hu hru
            · rcases hperm u hu with h | h | h
              · exact absurd (h ▸ hru) (hnotin u (Or.inr h))
              · exact absurd hru (hnotin u (Or.inl h))
              · rcases List.mem_cons.mp h with rfl | h
                · exact le_refl _
                · rw [List.pairwise_cons] at hsort
                  exact hsort.1 u h

theorem rmap_spec {T : List σ → Bool} {tbl : ObservationTable σ}
    (hwf : WellFormed T tbl) :
    ∃ rest, stableSortLen (fun s : List σ => s.length) tbl.S = [] :: rest ∧
      (∀ u ∈ tbl.S, u = [] ∨ u ∈ rest) ∧
      RmapInv T tbl (makeRowToStateMap tbl) rest := by
  have hnil : [] ∈ tbl.S := hwf.2.2.2.2.2.1
  have hSnd : tbl.S.Nodup := hwf.2.2.1
  obtain ⟨rest, hrest⟩ := stableSortLen_head hnil rfl hSnd
    (fun y _ hy => List.length_eq_zero.mp hy)
  have hperm := stableSortLen_perm (fun s : List σ => s.length) tbl.S
  rw [hrest] at hperm
  have hsort := stableSortLen_sorted (fun s : List σ => s.length) tbl.S
  rw [hrest] at hsort
  have hnd2 : ([] :: rest).Nodup := hperm.nodup_iff.mpr hSnd
  refine ⟨rest, hrest, ?_, ?_⟩
  · intro u hu
    exact List.mem_cons.mp (hperm.mem_iff.mpr hu)
  · have hinit : RmapInv T tbl [(storedRow tbl [], lamLabel σ)] [] := by
      rw [storedRow_eq hwf hnil]
      refine ⟨by simp [alookup], by simp, ?_, by simp, ?_, ?_⟩
      · intro r q h
        simp only [alookup] at h
        split at h
        · rename_i he
          cases h
          exact Or.inl ⟨rfl, he⟩
        · cases h
      · intro r q h hne
        simp only [alookup] at h
        split at h
        · rename_i he
          exact absurd he hne
        · cases h
      · intro r q h hne u hu hru
        simp only [alookup] at h
        split at h
        · rename_i he
          exact absurd he hne
        · cases h
    have hmain := rmapFold_inv hwf rest [] [(storedRow tbl [], lamLabel σ)]
      ?_ ?_ (List.Pairwise.of_cons hsort) (by simpa using hnd2) hinit
    · unfold makeRowToStateMap
      rw [hrest]
      simpa using hmain
    · intro u hu
      rcases List.mem_cons.mp (hperm.mem_iff.mpr hu) with h | h
      · exact Or.inl h
      · exact Or.inr (Or.inr h)
    · intro s hs
      exact hperm.mem_iff.mp (List.mem_cons_of_mem _ hs)

theorem rmap_covers_S {T : List σ → Bool} {tbl : ObservationTable σ}
    (hwf : WellFormed T tbl) :
    ∀ s ∈ tbl.S, ∃ q, alookup (makeRowToStateMap tbl) (rowFn T tbl.E s) = some q := by
  obtain ⟨rest, _, hmem, hinv⟩ := rmap_spec hwf
  intro s hs
  rcases hmem s hs with rfl | h
  · exact ⟨lamLabel σ, hinv.base⟩
  · exact Option.isSome_iff_exists.mp (hinv.covers s h)

/-- Values of the row-to-state map are injective names, provided the λ
label does not alias a representative prefix (`"λ" ∉ S`).  Without that
proviso two distinct rows can share the name `"λ"`. -/
theorem rmap_inj {T : List σ → Bool} {tbl : ObservationTable σ}
    (hwf : WellFormed T tbl) (hlam : lamLabel σ ∉ tbl.S) :
    ∀ r1 r2 q, alookup (makeRowToStateMap tbl) r1 = some q →
      alookup (makeRowToStateMap tbl) r2 = some q → r1 = r2 := by
  obtain ⟨rest, _, _, hinv⟩ := rmap_spec hwf
  intro r1 r2 q h1 h2
  rcases hinv.sound r1 q h1 with ⟨hq1, hr1⟩ | ⟨hq1, hr1, _⟩ <;>
    rcases hinv.sound r2 q h2 with ⟨hq2, hr2⟩ | ⟨hq2, hr2, _⟩
  · rw [hr1, hr2]
  · exact absurd (hq1 ▸ hq2) hlam
  · exact absurd (hq2 ▸ hq1) hlam
  · rw [hr1, hr2]

/-! ## Helper facts for the extraction loop -/

/-- Two-level lookup into the transition dictionary. -/
def lookup2 (d : List (DState σ × List (σ × DState σ))) (q : DState σ) (c : σ) :
    Option (DState σ) :=
  match alookup d q with
  | none => none
  | some inner => alookup inner c

theorem dropLast_getLast_concat {x : List σ} {c : σ}
    (hc : x.getLast? = some c) : x.dropLast ++ [c] = x := by
  have hne : x ≠ [] := by
    intro h
    subst h
    cases hc
  have h2 := List.getLast?_eq_getLast x hne
  rw [hc] at h2
  injection h2 with h3
  rw [h3]
  exact List.dropLast_append_getLast hne

/-- Consistency transfers row equality through one-symbol extension. -/
theorem consistent_rowext {T : List σ → Bool} {tbl : ObservationTable σ}
    (hco : ConsistentTable T tbl) {p1 p2 : List σ}
    (h1 : p1 ∈ tbl.S) (h2 : p2 ∈ tbl.S)
    (hrow : rowFn T tbl.E p1 = rowFn T tbl.E p2) {a : σ} (ha : a ∈ tbl.A) :
    rowFn T tbl.E (p1 ++ [a]) = rowFn T tbl.E (p2 ++ [a]) := by
  by_cases hpe : p1 = p2
  · rw [hpe]
  · have hpoint := hco p1 h1 p2 h2 hpe hrow a ha
    unfold rowFn
    refine List.map_congr_left ?_
    intro e he
    have h3 : p1 ++ [a] ++ e = p1 ++ (a :: e) := by simp
    have h4 : p2 ++ [a] ++ e = p2 ++ (a :: e) := by simp
    rw [h3, h4]
    exact hpoint e he

/-- Every nonempty table key has its parent in `S` and its last symbol in
the alphabet. -/
theorem key_structure {T : List σ → Bool} {tbl : ObservationTable σ}
    (hwf : WellFormed T tbl) {x : List σ}
    (hx : x ∈ tbl.S ∨ x ∈ tbl.SdotA) (hne : x ≠ []) {c : σ}
    (hc : x.getLast? = some c) :
    x.dropLast ∈ tbl.S ∧ c ∈ tbl.A := by
  obtain ⟨_, _, _, _, _, _, hpc, hchars, _, hshape, _⟩ := hwf
  rcases hx with hx | hx
  · refine ⟨hpc x hx hne, ?_⟩
    have hmem : c ∈ x := by
      have := dropLast_getLast_concat hc
      rw [← this]
      simp
    exact hchars x hx c hmem
  · obtain ⟨s, hs, a, ha, rfl⟩ := hshape x hx
    have hd : (s ++ [a]).dropLast = s := by simp
    have hg : (s ++ [a]).getLast? = some a := by
      rw [List.getLast?_concat]
    rw [hg] at hc
    injection hc with hc
    subst hc
    refine ⟨?_, ha⟩
    rw [hd]
    exact hs

/-- The row of every table key is named in the row-to-state map (for `S`
directly, for `S·A` through closedness). -/
theorem rmap_covers_key {T : List σ → Bool} {tbl : ObservationTable σ}
    (hwf : WellFormed T tbl) (hcl : ClosedTable T tbl) {x : List σ}
    (hx : x ∈ tbl.S ∨ x ∈ tbl.SdotA) :
    ∃ q, alookup (makeRowToStateMap tbl) (rowFn T tbl.E x) = some q := by
  rcases hx with hx | hx
  · exact rmap_covers_S hwf x hx
  · obtain ⟨s, hs, hrow⟩ := hcl x hx
    rw [hrow]
    exact rmap_covers_S hwf s hs

/-- The queried cache covers every table key. -/
theorem queried_covers {T : List σ → Bool} {tbl : ObservationTable σ}
    (hwf : WellFormed T tbl) {x : List σ}
    (hx : x ∈ tbl.S ∨ x ∈ tbl.SdotA) :
    alookup tbl.queried x = some (T x) := by
  refine hwf.2.2.2.2.2.2.2.2.2.2.2.2 x ?_
  rcases hx with hx | hx
  · exact List.mem_append_left _ hx
  · exact List.mem_append_right _ hx

theorem lookup2_none_of_alookup_none {d : List (DState σ × List (σ × DState σ))}
    {q : DState σ} (c : σ) (hd : alookup d q = none) : lookup2 d q c = none := by
  unfold lookup2
  rw [hd]

theorem lookup2_append_fresh (d : List (DState σ × List (σ × DState σ)))
    (q : DState σ) (c : σ) (prev : DState σ) (inner0 : List (σ × DState σ))
    (hd : alookup d prev = none) :
    lookup2 (d ++ [(prev, inner0)]) q c =
      if q = prev then alookup inner0 c else lookup2 d q c := by
  by_cases h : q = prev
  · subst h
    rw [if_pos rfl]
    unfold lookup2
    rw [alookup_append_of_none hd]
    simp [alookup]
  · rw [if_neg h]
    unfold lookup2
    cases hq : alookup d q with
    | none => rw [alookup_append_of_none hq]; simp [alookup, h]
    | some i => rw [alookup_append_of_some hq]

theorem lookup2_aupdate (d : List (DState σ × List (σ × DState σ)))
    (q : DState σ) (c : σ) (prev : DState σ) (inner0 : List (σ × DState σ)) :
    lookup2 (aupdate d prev inner0) q c =
      if q = prev then alookup inner0 c else lookup2 d q c := by
  unfold lookup2
  rw [aupdate_alookup]
  by_cases h : q = prev <;> simp [h]

/-- Invariant of the `to_dfa` fold: the transition dictionary has unique
outer and inner keys, every transition connects the named classes of an
`S` prefix and its one-symbol extension, and every collected state names
the class of some `S` prefix. -/
structure LoopInv (T : List σ → Bool) (tbl : ObservationTable σ)
    (acc : ExtractAcc σ) : Prop where
  dkeys : (acc.delta.map Prod.fst).Nodup
  dinner : ∀ pq ∈ acc.delta, (pq.2.map Prod.fst).Nodup
  dsound : ∀ pq ∈ acc.delta, ∀ cq ∈ pq.2, ∃ p, p ∈ tbl.S ∧ cq.1 ∈ tbl.A ∧
      alookup (makeRowToStateMap tbl) (rowFn T tbl.E p) = some pq.1 ∧
      alookup (makeRowToStateMap tbl) (rowFn T tbl.E (p ++ [cq.1])) = some cq.2
  ssound : ∀ q ∈ acc.states, ∃ p ∈ tbl.S,
      alookup (makeRowToStateMap tbl) (rowFn T tbl.E p) = some q

/-- The extraction loop neither fails nor loses transitions: it returns an
accumulator that keeps the invariant, preserves existing transitions, and
holds a transition for every processed pair. -/
theorem toDfaLoop_ok {T : List σ → Bool} {tbl : ObservationTable σ}
    (hwf : WellFormed T tbl) (hcl : ClosedTable T tbl)
    (hco : ConsistentTable T tbl) (hlam : lamLabel σ ∉ tbl.S) :
    ∀ (ps : List (List σ × List Bool)) (acc : ExtractAcc σ),
      (∀ p ∈ ps, (p.1 ∈ tbl.S ∨ p.1 ∈ tbl.SdotA) ∧ p.1 ≠ [] ∧
        p.2 = rowFn T tbl.E p.1) →
      LoopInv T tbl acc →
      ∃ acc2,
        toDfaLoop tbl (makeRowToStateMap tbl) (combinedTable tbl) ps acc = .ok acc2 ∧
        LoopInv T tbl acc2 ∧
        (∀ q c v, lookup2 acc.delta q c = some v → lookup2 acc2.delta q c = some v) ∧
        (∀ p ∈ ps, ∀ c, p.1.getLast? = some c →
          ∀ q, alookup (makeRowToStateMap tbl) (rowFn T tbl.E p.1.dropLast) = some q →
          ∃ v, lookup2 acc2.delta q c = some v) ∧
        (∀ q ∈ acc.states, q ∈ acc2.states) := by
  intro ps
  induction ps with
  | nil =>
      intro acc hps hinv
      exact ⟨acc, rfl, hinv, fun _ _ _ h => h, by simp, fun _ h => h⟩
  | cons p ps ih =>
      intro acc hps hinv
      obtain ⟨s, srow⟩ := p
      obtain ⟨hsx, hne, hsrow⟩ := hps (s, srow) (List.mem_cons_self _ _)
      dsimp only at hsx hne hsrow
      subst hsrow
      obtain ⟨c, hc⟩ := Option.isSome_iff_exists.mp (List.getLast?_isSome.mpr hne)
      obtain ⟨hpreS, hcA⟩ := key_structure hwf hsx hne hc
      have hcomb : alookup (combinedTable tbl) s.dropLast =
          some (rowFn T tbl.E s.dropLast) := combined_lookup_S hwf hpreS
      obtain ⟨prev, hprev⟩ := rmap_covers_S hwf s.dropLast hpreS
      obtain ⟨cur, hcur⟩ := rmap_covers_key hwf hcl hsx
      have hqpre := queried_covers hwf (Or.inl hpreS)
      have hqs := queried_covers hwf hsx
      have hconcat : s.dropLast ++ [c] = s := dropLast_getLast_concat hc
      have hcurext : alookup (makeRowToStateMap tbl)
          (rowFn T tbl.E (s.dropLast ++ [c])) = some cur := by
        rw [hconcat]; exact hcur
      have haddres : ∃ d2, addTrans acc.delta prev c cur = .ok d2 ∧
          (d2.map Prod.fst).Nodup ∧
          (∀ pq ∈ d2, (pq.2.map Prod.fst).Nodup) ∧
          (∀ pq ∈ d2, ∀ cq ∈ pq.2, ∃ p2, p2 ∈ tbl.S ∧ cq.1 ∈ tbl.A ∧
            alookup (makeRowToStateMap tbl) (rowFn T tbl.E p2) = some pq.1 ∧
            alookup (makeRowToStateMap tbl) (rowFn T tbl.E (p2 ++ [cq.1])) = some cq.2) ∧
          (∀ q2 c2 v, lookup2 acc.delta q2 c2 = some v → lookup2 d2 q2 c2 = some v) ∧
          lookup2 d2 prev c = some cur := by
        unfold addTrans
        cases hd : alookup acc.delta prev with
        | none =>
            refine ⟨acc.delta ++ [(prev, [(c, cur)])], rfl, ?_, ?_, ?_, ?_, ?_⟩
            · simp only [List.map_append, List.map_cons, List.map_nil]
              rw [List.nodup_append]
              refine ⟨hinv.dkeys, List.nodup_singleton _, ?_⟩
              intro q hq hq2
              simp only [List.mem_singleton] at hq2
              subst hq2
              have := alookup_isSome_of_mem_keys hq
              rw [hd] at this
              simp at this
            · intro pq hpq
              rcases List.mem_append.mp hpq with h | h
              · exact hinv.dinner pq h
              · simp only [List.mem_singleton] at h
                subst h
                simp
            · intro pq hpq cq hcq
              rcases List.mem_append.mp hpq with h | h
              · exact hinv.dsound pq h cq hcq
              · simp only [List.mem_singleton] at h
                subst h
                simp only [List.mem_singleton] at hcq
                subst hcq
                exact ⟨s.dropLast, hpreS, hcA, hprev, hcurext⟩
            · intro q2 c2 v hv
              rw [lookup2_append_fresh _ _ _ _ _ hd]
              by_cases he : q2 = prev
              · subst he
                rw [lookup2_none_of_alookup_none c2 hd] at hv
                cases hv
              · rw [if_neg he]
                exact hv
            · rw [lookup2_append_fresh _ _ _ _ _ hd, if_pos rfl]
              simp [alookup]
        | some inner =>
            have hprevmem : (prev, inner) ∈ acc.delta := alookup_mem hd
            have hprevkey : prev ∈ acc.delta.map Prod.fst :=
              List.mem_map.mpr ⟨(prev, inner), hprevmem, rfl⟩
            cases hi : alookup inner c with
            | none =>
                refine ⟨aupdate acc.delta prev (inner ++ [(c, cur)]), by simp [hi], ?_, ?_, ?_, ?_, ?_⟩
                · rw [aupdate_keys_of_mem _ hprevkey]
                  exact hinv.dkeys
                · intro pq hpq
                  rcases aupdate_mem_cases hpq with h | h
                  · exact hinv.dinner pq h
                  · subst h
                    simp only [List.map_append, List.map_cons, List.map_nil]
                    rw [List.nodup_append]
                    refine ⟨hinv.dinner (prev, inner) hprevmem, List.nodup_singleton _, ?_⟩
                    intro c2 hc2 hc3
                    simp only [List.mem_singleton] at hc3
                    subst hc3
                    have := alookup_isSome_of_mem_keys hc2
                    rw [hi] at this
                    simp at this
                · intro pq hpq cq hcq
                  rcases aupdate_mem_cases hpq with h | h
                  · exact hinv.dsound pq h cq hcq
                  · subst h
                    rcases List.mem_append.mp hcq with h2 | h2
                    · exact hinv.dsound (prev, inner) hprevmem cq h2
                    · simp only [List.mem_singleton] at h2
                      subst h2
                      exact ⟨s.dropLast, hpreS, hcA, hprev, hcurext⟩
                · intro q2 c2 v hv
                  rw [lookup2_aupdate]
                  by_cases he : q2 = prev
                  · subst he
                    rw [if_pos rfl]
                    unfold lookup2 at hv
                    rw [hd] at hv
                    exact alookup_append_of_some hv
                  · rw [if_neg he]
                    exact hv
                · rw [lookup2_aupdate, if_pos rfl, alookup_append_of_none hi]
                  simp [alookup]
            | some q2 =>
                have hcurq2 : cur = q2 := by
                  obtain ⟨p1, hp1S, hc1A, hp1prev, hp1cur⟩ :=
                    hinv.dsound (prev, inner) hprevmem (c, q2) (alookup_mem hi)
                  have hroweq : rowFn T tbl.E p1 = rowFn T tbl.E s.dropLast :=
                    rmap_inj hwf hlam _ _ prev hp1prev hprev
                  have hext := consistent_rowext hco hp1S hpreS hroweq hcA
                  rw [hconcat] at hext
                  rw [hext, hcur] at hp1cur
                  exact Option.some.inj hp1cur
                refine ⟨acc.delta, by simp [hi, hcurq2], hinv.dkeys, hinv.dinner,
                  hinv.dsound, fun _ _ _ h => h, ?_⟩
                unfold lookup2
                rw [hd]
                show alookup inner c = some cur
                rw [hi, hcurq2]
      obtain ⟨d2, haddok, hd2keys, hd2inner, hd2sound, hd2pres, hd2cur⟩ := haddres
      have hinv1 : LoopInv T tbl ⟨d2, addElem (addElem acc.states prev) cur,
          if T s then addElem (if T s.dropLast then addElem acc.finals prev
            else acc.finals) cur
          else (if T s.dropLast then addElem acc.finals prev else acc.finals)⟩ := by
        refine ⟨hd2keys, hd2inner, hd2sound, ?_⟩
        intro q hq
        simp only at hq
        rcases addElem_mem_iff.mp hq with hq | rfl
        · rcases addElem_mem_iff.mp hq with hq | rfl
          · exact hinv.ssound q hq
          · exact ⟨s.dropLast, hpreS, hprev⟩
        · rcases hsx with hx | hx
          · exact ⟨s, hx, hcur⟩
          · obtain ⟨s2, hs2, hrow2⟩ := hcl s hx
            refine ⟨s2, hs2, ?_⟩
            rw [← hrow2]
            exact hcur
      obtain ⟨acc2, hrec, hinv2, hpres2, hcover2, hstates2⟩ :=
        ih _ (fun p2 hp2 => hps p2 (List.mem_cons_of_mem _ hp2)) hinv1
      have hstep : toDfaLoop tbl (makeRowToStateMap tbl) (combinedTable tbl)
          ((s, rowFn T tbl.E s) :: ps) acc = toDfaLoop tbl (makeRowToStateMap tbl)
          (combinedTable tbl) ps ⟨d2, addElem (addElem acc.states prev) cur,
          if T s then addElem (if T s.dropLast then addElem acc.finals prev
            else acc.finals) cur
          else (if T s.dropLast then addElem acc.finals prev else acc.finals)⟩ := by
        simp only [toDfaLoop, hc, hcomb, hprev, hcur, haddok, hqpre, hqs]
      refine ⟨acc2, by rw [hstep]; exact hrec, hinv2, ?_, ?_, ?_⟩
      · intro q c2 v hv
        exact hpres2 q c2 v (hd2pres q c2 v hv)
      · intro p2 hp2 c2 hc2 q hq
        rcases List.mem_cons.mp hp2 with rfl | hp2
        · have hc2c : c2 = c := by
            rw [hc] at hc2
            injection hc2 with h3
            exact h3.symm
          have hqprev : q = prev := by
            rw [hprev] at hq
            injection hq with h3
            exact h3.symm
          rw [hc2c, hqprev]
          exact ⟨cur, hpres2 prev c cur hd2cur⟩
        · exact hcover2 p2 hp2 c2 hc2 q hq
      · intro q hq
        refine hstates2 q ?_
        simp only
        exact addElem_mem_iff.mpr (Or.inl (addElem_mem_iff.mpr (Or.inl hq)))

/-! ## Counting transitions -/

theorem filter_key_length {inner : List (σ × DState σ)} {c : σ}
    (hnd : (inner.map Prod.fst).Nodup) :
    (inner.filter (fun cq => cq.1 = c)).length =
      (match alookup inner c with | none => 0 | some _ => 1) := by
  induction inner with
  | nil => rfl
  | cons p rest ih =>
      obtain ⟨c0, v0⟩ := p
      simp only [List.map_cons, List.nodup_cons] at hnd
      by_cases hc0 : c0 = c
      · subst hc0
        have hrest : alookup rest c0 = none :=
          alookup_none_iff.mpr hnd.1
        have hfil : rest.filter (fun cq => cq.1 = c0) = [] := by
          rw [List.filter_eq_nil_iff]
          intro cq hcq
          simp only [decide_eq_true_eq]
          intro hcc
          exact hnd.1 (hcc ▸ List.mem_map.mpr ⟨cq, hcq, rfl⟩)
        simp [alookup, List.filter_cons, hfil]
      · have h2 : ¬ (c = c0) := fun h => hc0 h.symm
        simp only [alookup, h2, if_false]
        rw [← ih hnd.2]
        simp [List.filter_cons, hc0]

theorem countTrans_zero_of_not_mem {d : List (DState σ × List (σ × DState σ))}
    {q : DState σ} (c : σ) (h : q ∉ d.map Prod.fst) : countTrans d q c = 0 := by
  induction d with
  | nil => rfl
  | cons p rest ih =>
      simp only [List.map_cons, List.mem_cons] at h
      push_neg at h
      unfold countTrans
      simp only [List.flatMap_cons]
      have hne : ¬ (p.1 = q) := fun hc => h.1 hc.symm
      simp only [hne, if_false, List.nil_append]
      exact ih h.2

theorem countTrans_eq_one {d : List (DState σ × List (σ × DState σ))}
    {q : DState σ} {c : σ} {v : DState σ}
    (hk : (d.map Prod.fst).Nodup)
    (hi : ∀ pq ∈ d, (pq.2.map Prod.fst).Nodup)
    (h : lookup2 d q c = some v) : countTrans d q c = 1 := by
  induction d with
  | nil => cases h
  | cons p rest ih =>
      obtain ⟨q0, inner⟩ := p
      simp only [List.map_cons, List.nodup_cons] at hk
      unfold lookup2 at h
      simp only [alookup] at h
      unfold countTrans
      simp only [List.flatMap_cons]
      by_cases hq0 : q = q0
      · subst hq0
        simp only [if_pos rfl, if_true] at h ⊢
        have hz := countTrans_zero_of_not_mem (d := rest) (q := q) c hk.1
        unfold countTrans at hz
        rw [List.length_append, hz]
        have hfk : (inner.filter (fun cq => cq.1 = c)).length =
            (match alookup inner c with | none => 0 | some _ => 1) :=
          filter_key_length (hi (q, inner) (List.mem_cons_self _ _))
        rw [hfk]
        cases hc2 : alookup inner c with
        | none => rw [hc2] at h; cases h
        | some _ => simp
      · have hne : ¬ (q0 = q) := fun hc => hq0 hc.symm
        simp only [hne, if_false, List.nil_append]
        rw [if_neg hq0] at h
        refine ih hk.2 (fun pq hpq => hi pq (List.mem_cons_of_mem _ hpq)) ?_
        unfold lookup2
        exact h

/-! ## The extraction theorem -/

/-- `to_dfa` on a well-formed, closed and consistent table: it succeeds,
the initial state is `λ`, the transition dictionary has unique keys at
both levels, and every collected state has an outgoing transition for
every alphabet symbol. -/
theorem toDfa_spec {T : List σ → Bool} {tbl : ObservationTable σ}
    (hwf : WellFormed T tbl) (hcl : ClosedTable T tbl)
    (hco : ConsistentTable T tbl) (hlam : lamLabel σ ∉ tbl.S) :
    ∃ M : DFA σ, toDfa tbl = .ok M ∧ M.A = tbl.A ∧ M.q0 = lamLabel σ ∧
      (M.d.map Prod.fst).Nodup ∧ (∀ pq ∈ M.d, (pq.2.map Prod.fst).Nodup) ∧
      (∀ q ∈ M.Q, ∀ a ∈ M.A, ∃ v, lookup2 M.d q a = some v) := by
  have hnil : [] ∈ tbl.S := hwf.2.2.2.2.2.1
  obtain ⟨rest0, hhead0, hmem0, hrinv⟩ := rmap_spec hwf
  have hsr : storedRow tbl [] = rowFn T tbl.E [] := storedRow_eq hwf hnil
  -- the sorted pair list starts with the empty-prefix pair
  have hpair0 : ([], rowFn T tbl.E []) ∈ combinedTable tbl := by
    rw [combined_eq hwf]
    exact List.mem_append_left _
      (mem_rows_of_mem_keys hwf.1 hwf.2.2.2.2.2.2.2.2.2.2.1 hnil)
  have hcnd : (combinedTable tbl).Nodup :=
    List.Nodup.of_map Prod.fst (combined_keys_nodup hwf)
  have huniq : ∀ p ∈ combinedTable tbl,
      (fun p : List σ × List Bool => p.1.length) p = 0 →
      p = ([], rowFn T tbl.E []) := by
    intro p hp hp0
    have hval := combined_vals hwf p hp
    obtain ⟨p1, p2⟩ := p
    simp only at hval hp0
    have : p1 = [] := List.length_eq_zero.mp hp0
    subst this
    rw [hval]
  obtain ⟨rest2, hhead2⟩ := stableSortLen_head hpair0 rfl hcnd huniq
  have hperm2 := stableSortLen_perm (fun p : List σ × List Bool => p.1.length)
    (combinedTable tbl)
  rw [hhead2] at hperm2
  have hnd2 : (([], rowFn T tbl.E []) :: rest2).Nodup := hperm2.nodup_iff.mpr hcnd
  have hps : ∀ p ∈ rest2, (p.1 ∈ tbl.S ∨ p.1 ∈ tbl.SdotA) ∧ p.1 ≠ [] ∧
      p.2 = rowFn T tbl.E p.1 := by
    intro p hp
    have hpc : p ∈ combinedTable tbl :=
      hperm2.mem_iff.mp (List.mem_cons_of_mem _ hp)
    have hkey : p.1 ∈ tbl.S ++ tbl.SdotA := by
      rw [← combined_keys hwf]
      exact List.mem_map.mpr ⟨p, hpc, rfl⟩
    refine ⟨List.mem_append.mp hkey, ?_, combined_vals hwf p hpc⟩
    intro hp1
    have hval := combined_vals hwf p hpc
    have hpe : p = ([], rowFn T tbl.E []) := by
      obtain ⟨p1, p2⟩ := p
      simp only at hval hp1
      subst hp1
      simp [hval]
    rw [List.nodup_cons] at hnd2
    exact hnd2.1 (hpe ▸ hp)
  have hinv0 : LoopInv T tbl ⟨[], [], []⟩ :=
    ⟨by simp, by simp, by simp, by simp⟩
  obtain ⟨acc2, hloop, hinv2, _, hcover, _⟩ := toDfaLoop_ok hwf hcl hco hlam rest2
    ⟨[], [], []⟩ hps hinv0
  refine ⟨⟨tbl.A, lamLabel σ, acc2.finals, acc2.states, acc2.delta⟩, ?_, rfl, rfl,
    hinv2.dkeys, hinv2.dinner, ?_⟩
  · unfold toDfa
    rw [hsr]
    simp only [hrinv.base, hhead2, List.drop_succ_cons, List.drop_zero, hloop]
  · intro q hq a ha
    simp only at hq ha
    obtain ⟨p, hpS, hpq⟩ := hinv2.ssound q hq
    have hbound := hwf.2.2.2.2.2.2.2.2.1 p hpS a ha
    have hpairmem : (p ++ [a], rowFn T tbl.E (p ++ [a])) ∈ combinedTable tbl := by
      rcases hbound with hb | hb
      · exact alookup_mem (combined_lookup_S hwf hb)
      · exact alookup_mem (combined_lookup_SdotA hwf hb)
    have hinrest : (p ++ [a], rowFn T tbl.E (p ++ [a])) ∈ rest2 := by
      have hmem2 := hperm2.mem_iff.mpr hpairmem
      rcases List.mem_cons.mp hmem2 with he | he
      · exfalso
        have : p ++ [a] = ([] : List σ) := congrArg Prod.fst he
        simpa using this
      · exact he
    have hlast : (p ++ [a]).getLast? = some a := List.getLast?_concat _
    have hdrop : (p ++ [a]).dropLast = p := by simp
    obtain ⟨v, hv⟩ := hcover (p ++ [a], rowFn T tbl.E (p ++ [a])) hinrest a hlast q
      (by rw [hdrop]; exact hpq)
    exact ⟨v, hv⟩

instance (T : List σ → Bool) (tbl : ObservationTable σ) :
    Decidable (WellFormed T tbl) := by
  unfold WellFormed
  exact inferInstance

instance (T : List σ → Bool) (tbl : ObservationTable σ) :
    Decidable (ClosedTable T tbl) := by
  unfold ClosedTable
  exact inferInstance

instance (T : List σ → Bool) (tbl : ObservationTable σ) :
    Decidable (ConsistentTable T tbl) := by
  unfold ConsistentTable
  exact inferInstance

/-! ## The λ-aliasing collision (C2/C5 counterexamples)

`_make_row_to_state_map` stores the literal label `"λ"` in the same
namespace as the representative prefixes.  When `'λ'` is an alphabet
symbol, the class of the prefix `"λ"` and the class of the empty prefix
both carry the name `"λ"`; the transition dictionary — keyed by name —
merges the two classes, and the consistency `assert` fires on a perfectly
well-formed, closed and consistent table. -/

/-- The collision oracle: accepts the empty string and every string
starting with `'a'`. -/
def colT : List Char → Bool := fun s => decide (s = [] ∨ s.head? = some 'a')

/-- A well-formed, closed and consistent table over the alphabet
`{'λ', 'a'}` whose core `S` contains the prefix `"λ"` as a class
representative, so its class name collides with the λ label. -/
def colTbl : ObservationTable Char :=
  { A := ['λ', 'a'],
    queried := [([], true), (['λ'], false), (['a'], true),
      (['λ', 'λ'], false), (['λ', 'a'], false), (['a', 'λ'], true),
      (['a', 'a'], true)],
    oracleCalls := [[], ['λ'], ['a'], ['λ', 'λ'], ['λ', 'a'], ['a', 'λ'],
      ['a', 'a']],
    S := [[], ['λ'], ['a']],
    SdotA := [['λ', 'λ'], ['λ', 'a'], ['a', 'λ'], ['a', 'a']],
    E := [[], ['λ']],
    S_rows := [([], [true, false]), (['λ'], [false, false]),
      (['a'], [true, true])],
    SdotA_rows := [(['λ', 'λ'], [false, false]), (['λ', 'a'], [false, false]),
      (['a', 'λ'], [true, true]), (['a', 'a'], [true, true])],
    cur_ce_len := 2, max_ce_len := 3,
    dfa := none }

/-- C2 (counterexample): the collision table is well-formed, closed and
consistent, yet `to_dfa` produces no automaton at all — the λ label
aliases the representative prefix `"λ"`, so nothing total or
deterministic is extracted. -/
theorem c2_extraction_total_refuted :
    WellFormed colT colTbl ∧ ClosedTable colT colTbl ∧
      ConsistentTable colT colTbl ∧ ∀ M, toDfa colTbl ≠ .ok M := by
  have he : toDfa colTbl = .error Err.inconsistentTable := by decide
  refine ⟨by decide, by decide, by decide, ?_⟩
  intro M h
  rw [he] at h
  cases h

/-- C2 (amended): for every well-formed, closed and consistent observation
table whose alphabet does not contain the λ character — so the label
`"λ"` cannot alias a representative prefix — `to_dfa` succeeds and the
resulting automaton's transition function is total and deterministic:
every collected state has exactly one outgoing transition for every
alphabet symbol.  The proviso is necessary: see the collision table. -/
theorem c2_extraction_total {T : List σ → Bool} {tbl : ObservationTable σ}
    (hwf : WellFormed T tbl) (hcl : ClosedTable T tbl)
    (hco : ConsistentTable T tbl) (hlam : (LamChar.lam : σ) ∉ tbl.A) :
    ∃ M : DFA σ, toDfa tbl = .ok M ∧
      ∀ q ∈ M.Q, ∀ a ∈ M.A, countTrans M.d q a = 1 := by
  have hlamS : lamLabel σ ∉ tbl.S := fun hmem =>
    hlam (hwf.2.2.2.2.2.2.2.1 (lamLabel σ) hmem LamChar.lam (by simp [lamLabel]))
  obtain ⟨M, hok, _, _, hk, hi, htot⟩ := toDfa_spec hwf hcl hco hlamS
  refine ⟨M, hok, ?_⟩
  intro q hq a ha
  obtain ⟨v, hv⟩ := htot q hq a ha
  exact countTrans_eq_one hk hi hv

/-- Witness for the amended C2 at the repaired table of the concrete run
(whose alphabet `{'a','b'}` does not contain `'λ'`). -/
theorem c2_extraction_total_witness :
    WellFormed runT tblRepaired ∧ ClosedTable runT tblRepaired ∧
      ConsistentTable runT tblRepaired ∧
      (LamChar.lam : Char) ∉ tblRepaired.A ∧
      ∃ M : DFA Char, toDfa tblRepaired = .ok M ∧
        ∀ q ∈ M.Q, ∀ a ∈ M.A, countTrans M.d q a = 1 :=
  ⟨by decide, by decide, by decide, by decide,
    @c2_extraction_total Char _ _ runT tblRepaired (by decide) (by decide)
      (by decide) (by decide)⟩

/-- C5 (counterexample): the inconsistency `assert` inside `to_dfa` *is*
reachable on a well-formed, closed and consistent table: on the collision
table the merged name `"λ"` carries two different rows, and at the key
`"λa"` the stored successor (the class of `"a"`) disagrees with the
recomputed one (the class of `"λa"`), so extraction raises the
inconsistent-table error. -/
theorem c5_assert_fires :
    WellFormed colT colTbl ∧ ClosedTable colT colTbl ∧
      ConsistentTable colT colTbl ∧
      toDfa colTbl = .error Err.inconsistentTable := by
  refine ⟨by decide, by decide, by decide, by decide⟩

/-- C5 (amended): on a well-formed, closed and consistent table whose
alphabet does not contain the λ character, the inconsistency `assert`
inside `to_dfa` never fires: extraction never returns the
inconsistent-table error and in fact always succeeds.  Without the
proviso the assert is reachable: see the collision table. -/
theorem c5_assert_unreachable {T : List σ → Bool} {tbl : ObservationTable σ}
    (hwf : WellFormed T tbl) (hcl : ClosedTable T tbl)
    (hco : ConsistentTable T tbl) (hlam : (LamChar.lam : σ) ∉ tbl.A) :
    toDfa tbl ≠ .error Err.inconsistentTable ∧ ∃ M, toDfa tbl = .ok M := by
  have hlamS : lamLabel σ ∉ tbl.S := fun hmem =>
    hlam (hwf.2.2.2.2.2.2.2.1 (lamLabel σ) hmem LamChar.lam (by simp [lamLabel]))
  obtain ⟨M, hok, _⟩ := toDfa_spec hwf hcl hco hlamS
  refine ⟨?_, M, hok⟩
  intro h
  rw [hok] at h
  cases h

/-- Witness for the amended C5 at the final table of the even-length run
(whose alphabet `{'a','b'}` does not contain `'λ'`). -/
theorem c5_assert_unreachable_witness :
    WellFormed evenT evenFinalTable ∧ ClosedTable evenT evenFinalTable ∧
      ConsistentTable evenT evenFinalTable ∧
      (LamChar.lam : Char) ∉ evenFinalTable.A ∧
      (toDfa evenFinalTable ≠ .error Err.inconsistentTable ∧
        ∃ M, toDfa evenFinalTable = .ok M) :=
  ⟨by decide, by decide, by decide, by decide,
    @c5_assert_unreachable Char _ _ evenT evenFinalTable (by decide) (by decide)
      (by decide) (by decide)⟩

/-! ## C7: class representatives

`_make_row_to_state_map` scans `sorted(self.S, key=len)[1:]`.  Python's
sort is stable, so among equal-length prefixes the first one *inserted
into `S`* names the class — not the lexicographically earliest one.  The
table below is well-formed, closed and consistent, lists `['b']` before
`['a']` in `S`, and both share the row `[false]`: the class is named
`['b']` although `['a']` is a same-length, lexicographically earlier
member. -/

/-- The oracle of the tie-break counterexample: only the empty string. -/
def c7T : List Char → Bool := fun s => decide (s = [])

/-- A closed, consistent, well-formed table whose core `S` lists `['b']`
before `['a']` (as happens when closedness promotes `['b']` first). -/
def c7Tbl : ObservationTable Char :=
  { A := ['a', 'b'],
    queried := [([], true), (['a'], false), (['b'], false),
      (['b', 'a'], false), (['b', 'b'], false), (['a', 'a'], false),
      (['a', 'b'], false)],
    oracleCalls := [[], ['a'], ['b'], ['b', 'a'], ['b', 'b'], ['a', 'a'],
      ['a', 'b']],
    S := [[], ['b'], ['a']],
    SdotA := [['b', 'a'], ['b', 'b'], ['a', 'a'], ['a', 'b']],
    E := [[]],
    S_rows := [([], [true]), (['b'], [false]), (['a'], [false])],
    SdotA_rows := [(['b', 'a'], [false]), (['b', 'b'], [false]),
      (['a', 'a'], [false]), (['a', 'b'], [false])],
    cur_ce_len := 2, max_ce_len := 3,
    dfa := none }

/-- C7 (counterexample): on the well-formed, closed and consistent table
`c7Tbl` the row class `[false]` is named after `['b']`, even though
`['a']` is a member of `S` with the same row, the same length, and a
lexicographically earlier symbol — refuting the claimed lexicographic
tie-break. -/
theorem c7_tie_break_not_lex :
    WellFormed c7T c7Tbl ∧ ClosedTable c7T c7Tbl ∧ ConsistentTable c7T c7Tbl ∧
    alookup (makeRowToStateMap c7Tbl) [false] = some ['b'] ∧
    ['a'] ∈ c7Tbl.S ∧ rowFn c7T c7Tbl.E ['a'] = [false] ∧
    (['a'] : List Char).length = (['b'] : List Char).length ∧
    ('a' : Char) < 'b' := by
  refine ⟨by decide, by decide, by decide, by decide, by decide, by decide,
    rfl, by decide⟩

/-- C7 (amended): for every well-formed, closed and consistent table, the
row-to-state map names the empty prefix's class with the label `"λ"` (the
initial state of every successfully extracted automaton), and every other
class is named after a member of `S` whose row is that class and whose
length is minimal among all `S`-members of the class; length ties are
broken by the stable iteration order of `S`, not lexicographically. -/
theorem c7_representatives_amended {T : List σ → Bool} {tbl : ObservationTable σ}
    (hwf : WellFormed T tbl) (hcl : ClosedTable T tbl)
    (hco : ConsistentTable T tbl) :
    alookup (makeRowToStateMap tbl) (rowFn T tbl.E []) = some (lamLabel σ) ∧
    (∀ r q, alookup (makeRowToStateMap tbl) r = some q →
      (q = lamLabel σ ∧ r = rowFn T tbl.E []) ∨
      (q ∈ tbl.S ∧ r = rowFn T tbl.E q ∧
        ∀ u ∈ tbl.S, rowFn T tbl.E u = r → q.length ≤ u.length)) ∧
    (∀ M, toDfa tbl = .ok M → M.q0 = lamLabel σ) := by
  obtain ⟨rest, hhead, hmem, hinv⟩ := rmap_spec hwf
  have hnil : [] ∈ tbl.S := hwf.2.2.2.2.2.1
  refine ⟨hinv.base, ?_, ?_⟩
  · intro r q hq
    rcases hinv.sound r q hq with h | ⟨hqS, hr, hrne⟩
    · exact Or.inl h
    · exact Or.inr ⟨hqS, hr, fun u hu hru => hinv.minlen r q hq hrne u hu hru⟩
  · intro M hok
    unfold toDfa at hok
    rw [storedRow_eq hwf hnil] at hok
    simp only [hinv.base] at hok
    split at hok
    · cases hok
    · cases hok
      rfl

/-- Witness for the amended C7 at the final table of the concrete run. -/
theorem c7_representatives_amended_witness :
    WellFormed runT lstarFinalTable ∧ ClosedTable runT lstarFinalTable ∧
      ConsistentTable runT lstarFinalTable ∧
      (alookup (makeRowToStateMap lstarFinalTable)
          (rowFn runT lstarFinalTable.E []) = some (lamLabel Char) ∧
        (∀ r q, alookup (makeRowToStateMap lstarFinalTable) r = some q →
          (q = lamLabel Char ∧ r = rowFn runT lstarFinalTable.E []) ∨
          (q ∈ lstarFinalTable.S ∧ r = rowFn runT lstarFinalTable.E q ∧
            ∀ u ∈ lstarFinalTable.S,
              rowFn runT lstarFinalTable.E u = r → q.length ≤ u.length)) ∧
        (∀ M, toDfa lstarFinalTable = .ok M → M.q0 = lamLabel Char)) :=
  ⟨by decide, by decide, by decide,
    @c7_representatives_amended Char _ _ runT lstarFinalTable (by decide)
      (by decide) (by decide)⟩

end LStar
